import Mathlib

/-!
Verification of the proxy-based copy-on-write draft machinery of the
immer-style repository (src/src/proxy.js).

The embedding is a heap machine: containers (plain objects / arrays) and
revocable proxy objects live in a heap addressed by `Addr`; draft states
(`createState` in the source) live in an arena addressed by `StateId`.
Property keys are abstracted as natural numbers, primitive values as
tagged naturals; reference identity is address identity.

The helpers imported by proxy.js from ./common (is, has, isProxyable,
isProxy, shallowCopy, each, finalize) are not part of the given source
tree; they are modelled from the spec where marked below.
-/

set_option autoImplicit false

namespace Immer

/-- Heap addresses: reference identity of JS objects is address identity. -/
abbrev Addr := Nat

/-- Identifiers of draft states (the records made by createState). -/
abbrev StateId := Nat

/-- Property keys (property names / array indices), abstracted. -/
abbrev Key := Nat

/-- JS values: undefined, primitives (tagged), or references to heap objects.
Equality of `JSValue` models the `is` collaborator (Object.is-style identity,
under which NaN-like self-equal primitives are equal to themselves). -/
inductive JSValue where
  | undef : JSValue
  | prim : Nat → JSValue
  | ref : Addr → JSValue
deriving DecidableEq, Repr

/-- Kind of a plain container: plain object or array. -/
inductive CKind where
  | obj : CKind
  | arr : CKind
deriving DecidableEq, Repr

/-- A plain container: ordered association list of key/value entries
(insertion order, unique keys in all reachable containers). -/
structure Container where
  kind : CKind
  entries : List (Key × JSValue)
deriving DecidableEq, Repr

/-- Heap objects: plain containers, or revocable proxy objects. A proxy
object records the draft state it routes to and whether it has been
revoked (Proxy.revocable's revoke sets the flag). -/
inductive HeapObj where
  | container : Container → HeapObj
  | proxyObj : StateId → Bool → HeapObj
deriving DecidableEq, Repr

/-- Draft state, translated from createState in proxy.js: modification
flag, finalization flag, optional parent state, base address, optional
copy address, and the per-key cache of child proxies. -/
structure DraftState where
  modified : Bool
  finalized : Bool
  parent : Option StateId
  base : Addr
  copy : Option Addr
  proxies : List (Key × Addr)
deriving DecidableEq, Repr

/-- The whole machine: the heap, the state arena, and the registry of
proxies created during the current produce call (the module-level
`proxies` list in proxy.js). -/
structure Machine where
  heap : List HeapObj
  states : List DraftState
  registry : List Addr
deriving DecidableEq, Repr

/-- Lookup in an association list: first entry with the given key. -/
def lookupEntry (es : List (Key × JSValue)) (k : Key) : Option JSValue :=
  match es with
  | [] => none
  | (k₁, v) :: rest => if k₁ = k then some v else lookupEntry rest k

/-- Lookup in the proxies cache. -/
def lookupProxy (ps : List (Key × Addr)) (k : Key) : Option Addr :=
  match ps with
  | [] => none
  | (k₁, a) :: rest => if k₁ = k then some a else lookupProxy rest k

/-- JS-style assignment into a container's entry list: update the entry
in place if the key exists, otherwise append it (insertion order). -/
def setEntry (es : List (Key × JSValue)) (k : Key) (v : JSValue) : List (Key × JSValue) :=
  match es with
  | [] => [(k, v)]
  | (k₁, v₁) :: rest =>
      if k₁ = k then (k₁, v) :: rest else (k₁, v₁) :: setEntry rest k v

/-- JS-style assignment into the proxies cache. -/
def setProxy (ps : List (Key × Addr)) (k : Key) (a : Addr) : List (Key × Addr) :=
  match ps with
  | [] => [(k, a)]
  | (k₁, a₁) :: rest =>
      if k₁ = k then (k₁, a) :: rest else (k₁, a₁) :: setProxy rest k a

/-- JS delete: remove every entry with the given key. -/
def removeEntry (es : List (Key × JSValue)) (k : Key) : List (Key × JSValue) :=
  match es with
  | [] => []
  | (k₁, v₁) :: rest =>
      if k₁ = k then removeEntry rest k else (k₁, v₁) :: removeEntry rest k

/-- Key presence in a container's entries (the `has` collaborator /
the JS `in` operator on plain data). -/
def hasKey (es : List (Key × JSValue)) (k : Key) : Bool :=
  match es with
  | [] => false
  | (k₁, _) :: rest => if k₁ = k then true else hasKey rest k

/-- Key presence in the proxies cache (has(state.proxies, prop)). -/
def hasProxy (ps : List (Key × Addr)) (k : Key) : Bool :=
  match ps with
  | [] => false
  | (k₁, _) :: rest => if k₁ = k then true else hasProxy rest k

namespace Machine

/-- Lookup of a heap object by address. -/
def obj? (m : Machine) (a : Addr) : Option HeapObj :=
  m.heap.get? a

/-- Lookup of a container by address. -/
def container? (m : Machine) (a : Addr) : Option Container :=
  match m.heap.get? a with
  | some (.container c) => some c
  | _ => none

/-- Lookup of a draft state by id. -/
def state? (m : Machine) (sid : StateId) : Option DraftState :=
  m.states.get? sid

/-- Reading property `k` of the container at address `a`; JS yields
undefined for a missing key or a non-container target. -/
def readAddr (m : Machine) (a : Addr) (k : Key) : JSValue :=
  match m.container? a with
  | some c => (lookupEntry c.entries k).getD .undef
  | none => (.undef)

/-- Key presence test on the container at `a` (prop in obj). -/
def hasAddr (m : Machine) (a : Addr) (k : Key) : Bool :=
  match m.container? a with
  | some c => hasKey c.entries k
  | none => false

/-- The isProxyable collaborator, modelled from the spec: true exactly
for references to plain containers (the two draftable shapes); values
carrying drafting metadata (proxy objects) are rejected. -/
def isProxyable (m : Machine) (v : JSValue) : Bool :=
  match v with
  | .ref a => match m.heap.get? a with
      | some (.container _) => true
      | _ => false
  | _ => false

/-- The isProxy collaborator, modelled from the spec: true exactly for
references to (draft) proxy objects. -/
def isProxy (m : Machine) (v : JSValue) : Bool :=
  match v with
  | .ref a => match m.heap.get? a with
      | some (.proxyObj _ _) => true
      | _ => false
  | _ => false

/-- Overwrite property `k` of the container at `a` (obj[k] = v). -/
def writeAddr (m : Machine) (a : Addr) (k : Key) (v : JSValue) : Machine :=
  match m.heap.get? a with
  | some (.container c) =>
      { m with heap := m.heap.set a (.container ⟨c.kind, setEntry c.entries k v⟩) }
  | _ => m

/-- Delete property `k` of the container at `a` (delete obj[k]). -/
def deleteAddr (m : Machine) (a : Addr) (k : Key) : Machine :=
  match m.heap.get? a with
  | some (.container c) =>
      { m with heap := m.heap.set a (.container ⟨c.kind, removeEntry c.entries k⟩) }
  | _ => m

end Machine

end Immer

namespace Immer

/-- Error taxonomy of the system (see the spec's error-handling design),
plus a generic type error for faulting accesses and a user error for
exceptions raised by the mutation function itself. -/
inductive PErr where
  | unsupportedOperation : PErr
  | returnedAndModified : PErr
  | typeError : PErr
  | userError : PErr
deriving DecidableEq, Repr

/-- createState from proxy.js. -/
def createState (parent : Option StateId) (base : Addr) : DraftState :=
  { modified := false, finalized := false, parent := parent, base := base,
    copy := none, proxies := [] }

/-- createProxy from proxy.js: creates the draft state and a revocable
proxy object routing to it (array and object targets share the same trap
semantics), and pushes the proxy onto the call's registry. Returns the
new proxy's address. -/
def createProxy (m : Machine) (parent : Option StateId) (base : Addr) :
    Machine × Addr :=
  let sid := m.states.length
  let a := m.heap.length
  ({ heap := m.heap ++ [.proxyObj sid false],
     states := m.states ++ [createState parent base],
     registry := m.registry ++ [a] }, a)

/-- source from proxy.js: the effective value of a state — copy when
modified, base otherwise (a modified state always carries a copy; the
getD default is never reached on machines built by the traps). -/
def source (st : DraftState) : Addr :=
  if st.modified then st.copy.getD st.base else st.base

/-- Overlay of the proxies cache onto the freshly made shallow copy,
in cache insertion order (Object.assign(state.copy, state.proxies)). -/
def overlayProxies (es : List (Key × JSValue)) (ps : List (Key × Addr)) :
    List (Key × JSValue) :=
  ps.foldl (fun acc p => setEntry acc p.1 (.ref p.2)) es

/-- The copy container built by one escalation step: a shallow copy of
the state's base with the proxies cache assigned over it
(copy = shallowCopy(base); Object.assign(copy, proxies)). -/
def mcCopy (m : Machine) (st : DraftState) : Container :=
  ⟨((m.container? st.base).getD ⟨.obj, []⟩).kind,
   overlayProxies ((m.container? st.base).getD ⟨.obj, []⟩).entries st.proxies⟩

/-- One escalation step of markChanged on a single unmodified state: set
modified, allocate the copy container at a fresh address. -/
def mcStep (m : Machine) (sid : StateId) (st : DraftState) : Machine :=
  { heap := m.heap ++ [.container (mcCopy m st)],
    states := m.states.set sid { st with modified := true, copy := some m.heap.length },
    registry := m.registry }

/-- markChanged from proxy.js, with explicit fuel for the walk up the
parent chain. If the state is unmodified: set modified, allocate the copy
as a shallow copy of base with the proxies cache assigned over it, and
recurse on the parent; otherwise do nothing. States built by createProxy
satisfy parent < id, so fuel sid + 1 always suffices (markChanged). -/
def markChangedAux : Nat → Machine → StateId → Machine
  | 0, m, _ => m
  | fuel+1, m, sid =>
    match m.state? sid with
    | none => m
    | some st =>
      if st.modified then m
      else
        match st.parent with
        | none => mcStep m sid st
        | some p => markChangedAux fuel (mcStep m sid st) p

/-- markChanged entry point (fuel sid + 1 covers the whole parent chain
on well-formed machines, where parents have smaller ids). -/
def markChanged (m : Machine) (sid : StateId) : Machine :=
  markChangedAux (sid + 1) m sid

/-- The get trap from proxy.js. The PROXY_STATE read is internal to the
orchestrator and modelled there by direct state access. -/
def get (m : Machine) (sid : StateId) (k : Key) : Machine × JSValue :=
  match m.state? sid with
  | none => (m, .undef)
  | some st =>
    if st.modified then
      if m.readAddr (st.copy.getD st.base) k = m.readAddr st.base k ∧
         m.isProxyable (m.readAddr (st.copy.getD st.base) k) = true then
        match m.readAddr (st.copy.getD st.base) k with
        | .ref b =>
            ((createProxy m (some sid) b).1.writeAddr (st.copy.getD st.base) k
               (.ref (createProxy m (some sid) b).2),
             .ref (createProxy m (some sid) b).2)
        | v => (m, v)
      else (m, m.readAddr (st.copy.getD st.base) k)
    else
      match lookupProxy st.proxies k with
      | some pa => (m, .ref pa)
      | none =>
        if m.isProxy (m.readAddr st.base k) = false ∧
           m.isProxyable (m.readAddr st.base k) = true then
          match m.readAddr st.base k with
          | .ref b =>
              ({ (createProxy m (some sid) b).1 with
                  states := (createProxy m (some sid) b).1.states.set sid
                    { st with proxies := setProxy st.proxies k (createProxy m (some sid) b).2 } },
               .ref (createProxy m (some sid) b).2)
          | v => (m, v)
        else (m, m.readAddr st.base k)

/-- The no-op test of the set trap from proxy.js: the state is untouched
and the written value is identical (is = Object.is) to the base value at
the key (which must be present), or is the cached child proxy there. -/
def setIsNoop (m : Machine) (st : DraftState) (k : Key) (v : JSValue) : Bool :=
  (m.hasAddr st.base k && (m.readAddr st.base k == v)) ||
  (match lookupProxy st.proxies k with
   | some pa => v == JSValue.ref pa
   | none => false)

/-- The set trap from proxy.js: on an unmodified state a no-op write
returns success without escalating; otherwise markChanged runs and the
value is stored into the copy. The JS trap returns true in every case. -/
def set (m : Machine) (sid : StateId) (k : Key) (v : JSValue) : Machine × Bool :=
  match m.state? sid with
  | none => (m, true)
  | some st =>
    if st.modified then (m.writeAddr (st.copy.getD st.base) k v, true)
    else
      if setIsNoop m st k v then (m, true)
      else
        match (markChanged m sid).state? sid with
        | some st₁ =>
            ((markChanged m sid).writeAddr (st₁.copy.getD st₁.base) k v, true)
        | none => (markChanged m sid, true)

/-- The deleteProperty trap from proxy.js: unconditionally escalate via
markChanged, then delete the key from the copy. -/
def deleteProperty (m : Machine) (sid : StateId) (k : Key) : Machine × Bool :=
  match (markChanged m sid).state? sid with
  | some st₁ =>
      ((markChanged m sid).deleteAddr (st₁.copy.getD st₁.base) k, true)
  | none => (markChanged m sid, true)

/-- The setPrototypeOf trap from proxy.js: unconditionally raises. -/
def setPrototypeOf (m : Machine) (sid : StateId) (v : JSValue) :
    Except PErr Unit × Machine :=
  (.error .unsupportedOperation, m)

/-- The defineProperty trap from proxy.js: unconditionally raises. -/
def defineProperty (m : Machine) (sid : StateId) (k : Key) (d : JSValue) :
    Except PErr Unit × Machine :=
  (.error .unsupportedOperation, m)

end Immer

namespace Immer

mutual

/-- Modelled from the spec: the finalize collaborator of ./common, which
is not in the given source tree (spec §4.3). Fuel bounds the recursion
depth, since the walked JS object graph may be cyclic. A draft whose
state is unmodified finalizes to its base unchanged; a draft whose state
is modified finalizes to a new plain container of the same kind holding
the recursively finalized entries of the copy; a non-draft plain
container keeps its own address (returned as-is structurally) with its
fields walked for embedded drafts; every other value passes through. -/
def finalizeAux : Nat → Machine → JSValue → Machine × JSValue
  | 0, m, v => (m, v)
  | fuel+1, m, v =>
    match v with
    | .ref a =>
      match m.heap.get? a with
      | some (.proxyObj sid _) =>
        match m.state? sid with
        | some st =>
          if st.modified then
            match m.container? (st.copy.getD st.base) with
            | some c =>
              ({ (finalizeEntries fuel m c.entries).1 with
                  heap := (finalizeEntries fuel m c.entries).1.heap ++
                    [.container ⟨c.kind, (finalizeEntries fuel m c.entries).2⟩] },
               .ref (finalizeEntries fuel m c.entries).1.heap.length)
            | none => (m, v)
          else (m, .ref st.base)
        | none => (m, v)
      | some (.container c) =>
        ({ (finalizeEntries fuel m c.entries).1 with
            heap := (finalizeEntries fuel m c.entries).1.heap.set a
              (.container ⟨c.kind, (finalizeEntries fuel m c.entries).2⟩) },
         .ref a)
      | none => (m, v)
    | _ => (m, v)
termination_by fuel _ _ => (fuel, 0)

/-- Recursive finalization of a container's entries, in order. -/
def finalizeEntries : Nat → Machine → List (Key × JSValue) → Machine × List (Key × JSValue)
  | _, m, [] => (m, [])
  | fuel, m, (k, v) :: rest =>
    ((finalizeEntries fuel (finalizeAux fuel m v).1 rest).1,
     (k, (finalizeAux fuel m v).2) ::
       (finalizeEntries fuel (finalizeAux fuel m v).1 rest).2)
termination_by fuel _ es => (fuel, es.length + 1)

end

/-- Revocation of a single revocable proxy (its revoke function). -/
def revokeOne (m : Machine) (a : Addr) : Machine :=
  match m.heap.get? a with
  | some (.proxyObj sid _) => { m with heap := m.heap.set a (.proxyObj sid true) }
  | _ => m

/-- Revocation of every proxy in the registry, in order
(each(proxies, (_, p) => p.revoke())). -/
def revokeAll (m : Machine) : Machine :=
  m.registry.foldl revokeOne m

/-- Literal values a mutation function can write: undefined or a
primitive. -/
inductive Lit where
  | undef : Lit
  | prim : Nat → Lit
deriving DecidableEq, Repr

/-- Conversion of a literal into a value. -/
def Lit.toValue : Lit → JSValue
  | .undef => .undef
  | .prim n => .prim n

/-- Deep-embedded steps of a mutation function. A step addresses a node
by the key path from the root draft — each path step is one get-trap
read, exactly as the JS expression draft.a.b performs — then applies one
trap there. writeDraftAt writes the value reached from the root along a
second path (so a cached child draft can be written back). throwErr is
the mutation function raising an exception of its own. -/
inductive Cmd where
  | readAt : List Key → Key → Cmd
  | writeAt : List Key → Key → Lit → Cmd
  | writeDraftAt : List Key → Key → List Key → Cmd
  | deleteAt : List Key → Key → Cmd
  | throwErr : Cmd
deriving DecidableEq, Repr

/-- Navigation from a value through a path of get-trap reads; reading a
key of anything that is not a live draft proxy yields undefined. -/
def navigate : Machine → JSValue → List Key → Machine × JSValue
  | m, v, [] => (m, v)
  | m, v, k :: rest =>
    match v with
    | .ref a =>
      match m.heap.get? a with
      | some (.proxyObj sid false) =>
        navigate (get m sid k).1 (get m sid k).2 rest
      | _ => (m, .undef)
    | _ => (m, .undef)

/-- Resolution of a path to the draft state it denotes; faults when it
does not reach a live draft proxy. -/
def resolve (m : Machine) (root : Addr) (path : List Key) :
    Machine × Except PErr StateId :=
  match (navigate m (.ref root) path).2 with
  | .ref a =>
    match (navigate m (.ref root) path).1.heap.get? a with
    | some (.proxyObj sid false) => ((navigate m (.ref root) path).1, .ok sid)
    | _ => ((navigate m (.ref root) path).1, .error .typeError)
  | _ => ((navigate m (.ref root) path).1, .error .typeError)

/-- Execution of one step; the machine is kept on the error path (the JS
heap persists when an exception is thrown). -/
def execCmd (m : Machine) (root : Addr) : Cmd → Machine × Option PErr
  | .readAt path k =>
    match (resolve m root path).2 with
    | .ok sid => ((get (resolve m root path).1 sid k).1, none)
    | .error e => ((resolve m root path).1, some e)
  | .writeAt path k v =>
    match (resolve m root path).2 with
    | .ok sid => ((set (resolve m root path).1 sid k v.toValue).1, none)
    | .error e => ((resolve m root path).1, some e)
  | .writeDraftAt path k dpath =>
    match (resolve m root path).2 with
    | .ok sid =>
      ((set (navigate (resolve m root path).1 (.ref root) dpath).1 sid k
          (navigate (resolve m root path).1 (.ref root) dpath).2).1, none)
    | .error e => ((resolve m root path).1, some e)
  | .deleteAt path k =>
    match (resolve m root path).2 with
    | .ok sid => ((deleteProperty (resolve m root path).1 sid k).1, none)
    | .error e => ((resolve m root path).1, some e)
  | .throwErr => (m, some .userError)

/-- Execution of the mutation function's steps in order; a raised
exception aborts the remainder. -/
def execProg (m : Machine) (root : Addr) : List Cmd → Machine × Option PErr
  | [] => (m, none)
  | c :: rest =>
    match execCmd m root c with
    | (m₁, none) => execProg m₁ root rest
    | (m₁, some e) => (m₁, some e)

/-- The shape of the mutation function's return value: nothing
(undefined), the root draft, a primitive, or whatever a path of get-trap
reads from the root reaches (a sub-draft, say). -/
inductive RetSpec where
  | retUndef : RetSpec
  | retRoot : RetSpec
  | retPrim : Nat → RetSpec
  | retPath : List Key → RetSpec
deriving DecidableEq, Repr

/-- Evaluation of the returned value (performed by the mutation function
itself, through ordinary reads). -/
def evalRet (m : Machine) (root : Addr) : RetSpec → Machine × JSValue
  | .retUndef => (m, .undef)
  | .retRoot => (m, .ref root)
  | .retPrim n => (m, .prim n)
  | .retPath p => navigate m (.ref root) p

/-- Reading rootProxy[PROXY_STATE].modified. -/
def rootModified (m : Machine) (a : Addr) : Bool :=
  match m.heap.get? a with
  | some (.proxyObj sid _) =>
    match m.state? sid with
    | some st => st.modified
    | none => false
  | _ => false

/-- produceProxy from proxy.js. The previous registry is saved and an
empty one installed; the root proxy is created; the mutation function
runs; if it returned neither undefined nor the root proxy then either
ReturnedAndModified is raised (when the root state is modified) or the
returned value is finalized in place of the root; otherwise the root is
finalized; then every proxy in the registry is revoked and the result
returned. The registry restore (the JS finally block) runs on every
path; the revocation loop sits inside the try block, before the normal
return. Finalize fuel is the heap size plus one, enough for every
acyclic reachable graph. -/
def produceCore (m : Machine) (rootA : Addr) (prog : List Cmd)
    (ret : RetSpec) : Except PErr JSValue × Machine :=
  match (execProg m rootA prog).2 with
  | some e => (.error e, (execProg m rootA prog).1)
  | none =>
    if (evalRet (execProg m rootA prog).1 rootA ret).2 ≠ .undef ∧
       (evalRet (execProg m rootA prog).1 rootA ret).2 ≠ .ref rootA then
      if rootModified (evalRet (execProg m rootA prog).1 rootA ret).1 rootA then
        (.error .returnedAndModified, (evalRet (execProg m rootA prog).1 rootA ret).1)
      else
        (.ok (finalizeAux ((evalRet (execProg m rootA prog).1 rootA ret).1.heap.length + 1)
            (evalRet (execProg m rootA prog).1 rootA ret).1
            (evalRet (execProg m rootA prog).1 rootA ret).2).2,
         revokeAll (finalizeAux ((evalRet (execProg m rootA prog).1 rootA ret).1.heap.length + 1)
            (evalRet (execProg m rootA prog).1 rootA ret).1
            (evalRet (execProg m rootA prog).1 rootA ret).2).1)
    else
      (.ok (finalizeAux ((evalRet (execProg m rootA prog).1 rootA ret).1.heap.length + 1)
          (evalRet (execProg m rootA prog).1 rootA ret).1 (.ref rootA)).2,
       revokeAll (finalizeAux ((evalRet (execProg m rootA prog).1 rootA ret).1.heap.length + 1)
          (evalRet (execProg m rootA prog).1 rootA ret).1 (.ref rootA)).1)

/-- produceProxy split into the body above plus the registry save and
restore around it (the restore is the JS finally block and runs on every
path). -/
def produceProxy (m₀ : Machine) (baseA : Addr) (prog : List Cmd)
    (ret : RetSpec) : Except PErr JSValue × Machine :=
  ((produceCore (createProxy { m₀ with registry := ([] : List Addr) } none baseA).1
      (createProxy { m₀ with registry := ([] : List Addr) } none baseA).2 prog ret).1,
   { (produceCore (createProxy { m₀ with registry := ([] : List Addr) } none baseA).1
      (createProxy { m₀ with registry := ([] : List Addr) } none baseA).2 prog ret).2
      with registry := m₀.registry })

end Immer

namespace Immer

/-- The parent chain of a state, oldest link last; fuel sid + 1 covers
the whole chain when parent links go to smaller ids. -/
def ancestorsAux : Nat → Machine → StateId → List StateId
  | 0, _, _ => []
  | fuel+1, m, sid =>
    match m.state? sid with
    | some st =>
      match st.parent with
      | some p => p :: ancestorsAux fuel m p
      | none => []
    | none => []

/-- The ancestors of a state, nearest first. -/
def ancestors (m : Machine) (sid : StateId) : List StateId :=
  ancestorsAux (sid + 1) m sid

/-- Parent links go to strictly smaller state ids; true of every machine
built by createProxy, which gives a child a fresh id above its parent's. -/
def ParentsLt (m : Machine) : Prop :=
  ∀ sid st p, m.state? sid = some st → st.parent = some p → p < sid

/-- Parent links land on existing states. -/
def ParentsEx (m : Machine) : Prop :=
  ∀ sid st p, m.state? sid = some st → st.parent = some p →
    ∃ pst, m.state? p = some pst

/-- Upward closure of the modified flag, one parent link at a time. -/
def UpClosed (m : Machine) : Prop :=
  ∀ sid st p pst, m.state? sid = some st → st.modified = true →
    st.parent = some p → m.state? p = some pst → pst.modified = true

/-- Upward closure allowed to fail only on links into the one state that
is currently escalating. -/
def AlmostUp (m : Machine) (x : StateId) : Prop :=
  ∀ sid st p pst, m.state? sid = some st → st.modified = true →
    st.parent = some p → m.state? p = some pst →
    (pst.modified = true ∨ p = x)

/-- Decidable check that a value is undefined, a primitive, or a
reference to a container of the given heap. -/
def lowValue (h : List HeapObj) (v : JSValue) : Bool :=
  match v with
  | .ref b => match h.get? b with
      | some (.container _) => true
      | _ => false
  | _ => true

/-- Decidable check of the pre-call heap discipline: every cell is a
plain container and every entry references a container of the same heap
(the caller's plain object graph, free of drafting metadata). -/
def initHeap (h : List HeapObj) : Bool :=
  h.all (fun o => match o with
    | .container c => c.entries.all (fun kv => lowValue h kv.2)
    | .proxyObj _ _ => false)

/-- Decidable check that every proxy object in the heap is revoked. -/
def allProxiesRevoked (m : Machine) : Bool :=
  m.heap.all (fun o => match o with
    | .proxyObj _ b => b
    | .container _ => true)

/-- The low part of the heap (the caller's pre-call graph) is untouched,
and the heap only grew. -/
def LowInvP (h : List HeapObj) (m : Machine) : Prop :=
  (∀ a, a < h.length → m.heap.get? a = h.get? a) ∧ h.length ≤ m.heap.length

/-- The frame invariant a produce call maintains between its machine and
the pre-call heap `h`: the pre-call graph is untouched and the heap only
grows; parent links are well-founded; every state's base is a pre-call
container; every modified state carries a copy, and every copy is a
freshly allocated (post-call-start) container. -/
structure Inv (h : List HeapObj) (m : Machine) : Prop where
  lowPres : ∀ a, a < h.length → m.heap.get? a = h.get? a
  heapExt : h.length ≤ m.heap.length
  parentsLt : ParentsLt m
  baseLow : ∀ sid st, m.state? sid = some st →
      st.base < h.length ∧ ∃ c, h.get? st.base = some (.container c)
  copyMod : ∀ sid st, m.state? sid = some st → st.modified = true → st.copy ≠ none
  copyHigh : ∀ sid st ca, m.state? sid = some st → st.copy = some ca →
      h.length ≤ ca ∧ ∃ c, m.heap.get? ca = some (.container c)

/-- A two-level example base graph: address 0 is the inner container
with entry 0 set to the primitive 1; address 1 is the outer container with
entry 0 referencing the inner container and entry 1 set to the primitive 7. -/
def exHeap : List HeapObj :=
  [.container ⟨.obj, [(0, .prim 1)]⟩,
   .container ⟨.obj, [(0, .ref 0), (1, .prim 7)]⟩]

/-- The example pre-call machine: the example heap, no states, empty
registry. -/
def exMachine : Machine := ⟨exHeap, [], []⟩

/-- The example machine with the root draft created over the outer
container (state 0, proxy at address 2). -/
def exDraft : Machine := (createProxy exMachine none 1).1

/-- The example machine after one read of key 0 through the root draft:
the child draft for the inner container is cached (proxy at address 3,
state 1). -/
def exDraft2 : Machine := (get exDraft 0 0).1

/-- Decidable check of ParentsLt over the finitely many states. -/
def parentsLtB (m : Machine) : Bool :=
  (List.range m.states.length).all (fun i =>
    match m.states.get? i with
    | some st => match st.parent with
        | some p => decide (p < i)
        | none => true
    | none => true)

/-- Decidable check of UpClosed over the finitely many states. -/
def upClosedB (m : Machine) : Bool :=
  (List.range m.states.length).all (fun i =>
    match m.states.get? i with
    | some st =>
      if st.modified then
        match st.parent with
        | some p => match m.states.get? p with
            | some pst => pst.modified
            | none => true
        | none => true
      else true
    | none => true)

/-- Decidable check that every modified state carries a copy. -/
def copiesModB (m : Machine) : Bool :=
  m.states.all (fun st => !st.modified || st.copy.isSome)

/-- Evolution of the state arena across an operation: states are only
added, and no state's modified flag is ever reset. -/
def Steps (m m' : Machine) : Prop :=
  m.states.length ≤ m'.states.length ∧
  (∀ j st st', m.state? j = some st → m'.state? j = some st' →
    st.modified = true → st'.modified = true)

/-- Every draft state of the machine is unmodified. -/
def AllUnmod (m : Machine) : Prop :=
  ∀ sid st, m.state? sid = some st → st.modified = false

/-- Every proxy object of the heap is listed in the registry (so the
bulk-revocation loop reaches it). -/
def ProxReg (m : Machine) : Prop :=
  ∀ a sid b, m.heap.get? a = some (.proxyObj sid b) → a ∈ m.registry

/-- Intermediate machine of the delete-a-missing-key run: the pre-call
machine with the root draft created over the container at baseA. -/
@[reducible] def dpM1 (m₀ : Machine) (baseA : Addr) : Machine :=
  { heap := m₀.heap ++ [.proxyObj 0 false],
    states := [createState none baseA],
    registry := [m₀.heap.length] }

/-- The root draft state of that run after its escalation: modified,
with the fresh copy allocated right after the root proxy. -/
@[reducible] def dpSt1 (m₀ : Machine) (baseA : Addr) : DraftState :=
  { modified := true, finalized := false, parent := none, base := baseA,
    copy := some (m₀.heap.length + 1), proxies := [] }

/-- Machine of the run after the deleteProperty trap: the copy holds the
base container's entries unchanged, the key being absent. -/
@[reducible] def dpM2 (m₀ : Machine) (baseA : Addr) (c : Container) : Machine :=
  { heap := (m₀.heap ++ [.proxyObj 0 false]) ++ [.container c],
    states := [dpSt1 m₀ baseA],
    registry := [m₀.heap.length] }

/-- Machine of the run after finalization: the finalized result
container is appended at the top of the heap. -/
@[reducible] def dpM4 (m₀ : Machine) (baseA : Addr) (c : Container) : Machine :=
  { heap := ((m₀.heap ++ [.proxyObj 0 false]) ++ [.container c]) ++ [.container c],
    states := [dpSt1 m₀ baseA],
    registry := [m₀.heap.length] }

end Immer

/-! ## Lemmas and theorems -/

namespace Immer

theorem lookupEntry_setEntry_self (es : List (Key × JSValue)) (k : Key) (v : JSValue) :
    lookupEntry (setEntry es k v) k = some v := by
  induction es with
  | nil => simp [setEntry, lookupEntry]
  | cons hd tl ih =>
    obtain ⟨k₁, v₁⟩ := hd
    by_cases h : k₁ = k
    · subst h; simp [setEntry, lookupEntry]
    · simp [setEntry, lookupEntry, h, ih]

theorem lookupEntry_setEntry_ne (es : List (Key × JSValue)) (k' k : Key) (v : JSValue)
    (h : k' ≠ k) : lookupEntry (setEntry es k' v) k = lookupEntry es k := by
  induction es with
  | nil => simp [setEntry, lookupEntry, h]
  | cons hd tl ih =>
    obtain ⟨k₁, v₁⟩ := hd
    by_cases h₁ : k₁ = k'
    · subst h₁; simp [setEntry, lookupEntry, h]
    · simp [setEntry, lookupEntry, h₁, ih]

theorem lookupProxy_setProxy_self (ps : List (Key × Addr)) (k : Key) (a : Addr) :
    lookupProxy (setProxy ps k a) k = some a := by
  induction ps with
  | nil => simp [setProxy, lookupProxy]
  | cons hd tl ih =>
    obtain ⟨k₁, a₁⟩ := hd
    by_cases h : k₁ = k
    · subst h; simp [setProxy, lookupProxy]
    · simp [setProxy, lookupProxy, h, ih]

theorem hasKey_false_lookupEntry (es : List (Key × JSValue)) (k : Key)
    (h : hasKey es k = false) : lookupEntry es k = none := by
  induction es with
  | nil => rfl
  | cons hd tl ih =>
    obtain ⟨k₁, v₁⟩ := hd
    by_cases h₁ : k₁ = k
    · subst h₁; simp [hasKey] at h
    · simp [hasKey, h₁] at h
      simp [lookupEntry, h₁, ih h]

theorem removeEntry_hasKey_false (es : List (Key × JSValue)) (k : Key)
    (h : hasKey es k = false) : removeEntry es k = es := by
  induction es with
  | nil => rfl
  | cons hd tl ih =>
    obtain ⟨k₁, v₁⟩ := hd
    by_cases h₁ : k₁ = k
    · subst h₁; simp [hasKey] at h
    · simp [hasKey, h₁] at h
      simp [removeEntry, h₁, ih h]

theorem overlayProxies_cons (es : List (Key × JSValue)) (p : Key × Addr)
    (ps : List (Key × Addr)) :
    overlayProxies es (p :: ps) = overlayProxies (setEntry es p.1 (.ref p.2)) ps := rfl

theorem lookupEntry_overlay_notmem (ps : List (Key × Addr)) (es : List (Key × JSValue))
    (k : Key) (h : ∀ p ∈ ps, p.1 ≠ k) :
    lookupEntry (overlayProxies es ps) k = lookupEntry es k := by
  induction ps generalizing es with
  | nil => rfl
  | cons hd tl ih =>
    rw [overlayProxies_cons, ih _ (fun p hp => h p (List.mem_cons_of_mem _ hp)),
        lookupEntry_setEntry_ne _ _ _ _ (h hd (List.mem_cons_self _ _))]

theorem lookupEntry_overlay (ps : List (Key × Addr)) (es : List (Key × JSValue))
    (k : Key) (pa : Addr) (hnd : (ps.map Prod.fst).Nodup)
    (h : lookupProxy ps k = some pa) :
    lookupEntry (overlayProxies es ps) k = some (.ref pa) := by
  induction ps generalizing es with
  | nil => simp [lookupProxy] at h
  | cons hd tl ih =>
    obtain ⟨k₁, a₁⟩ := hd
    rw [List.map_cons] at hnd
    by_cases hk : k₁ = k
    · subst hk
      simp [lookupProxy] at h
      subst h
      rw [overlayProxies_cons]
      have hnm : ∀ p ∈ tl, p.1 ≠ k₁ := by
        intro p hp he
        have hm : p.1 ∈ tl.map Prod.fst := List.mem_map_of_mem Prod.fst hp
        rw [he] at hm
        exact (List.nodup_cons.mp hnd).1 hm
      rw [lookupEntry_overlay_notmem tl _ k₁ hnm, lookupEntry_setEntry_self]
    · rw [overlayProxies_cons]
      exact ih (setEntry es k₁ (.ref a₁)) (List.nodup_cons.mp hnd).2
        (by simpa [lookupProxy, hk] using h)

theorem list_set_same {α : Type} (l : List α) (i : Nat) (x : α)
    (h : l.get? i = some x) : l.set i x = l := by
  induction l generalizing i with
  | nil => simp at h
  | cons hd tl ih =>
    cases i with
    | zero =>
      rw [List.get?_cons_zero] at h
      injection h with h
      rw [h]
      rfl
    | succ n =>
      rw [List.get?_cons_succ] at h
      show hd :: tl.set n x = hd :: tl
      rw [ih n h]

end Immer

namespace Immer

/-- C9: for every draft state and every argument, both the
setPrototypeOf trap and the defineProperty trap raise the
unsupported-operation error synchronously and leave the machine — in
particular every state's modified flag, base, copy, and proxies cache —
unchanged. -/
theorem prototype_defineProperty_unsupported :
    ∀ (m : Machine) (sid : StateId) (v : JSValue) (k : Key) (d : JSValue),
      setPrototypeOf m sid v = (.error .unsupportedOperation, m) ∧
      defineProperty m sid k d = (.error .unsupportedOperation, m) :=
  fun _ _ _ _ _ => ⟨rfl, rfl⟩

/-- C3: on a draft state with modified still false, a write of a value
that is identical (Object.is) to the base value at a key present in
base, or that is the cached child draft for the key, is a no-op: the set
trap reports success and returns the machine unchanged — modified stays
false and no copy is allocated. -/
theorem set_noop_write (m : Machine) (sid : StateId) (st : DraftState)
    (k : Key) (v : JSValue)
    (hst : m.state? sid = some st) (hmod : st.modified = false)
    (hnoop : (m.hasAddr st.base k = true ∧ m.readAddr st.base k = v) ∨
             (∃ pa, lookupProxy st.proxies k = some pa ∧ v = .ref pa)) :
    Immer.set m sid k v = (m, true) := by
  have hb : setIsNoop m st k v = true := by
    rcases hnoop with ⟨h1, h2⟩ | ⟨pa, h1, h2⟩
    · simp [setIsNoop, h1, h2]
    · simp [setIsNoop, h1, h2]
  simp [Immer.set, hst, hmod, hb]

/-- Witness for C3: writing the primitive 7 back to key 1 of the root
draft of the example machine is a no-op. -/
theorem set_noop_write_witness :
    Immer.set exDraft 0 1 (.prim 7) = (exDraft, true) :=
  set_noop_write exDraft 0 (createState none 1) 1 (.prim 7) (by decide) (by decide)
    (Or.inl (by decide))

/-- C1 counterexample: a produce call whose mutation function raises
propagates the error but leaves the root draft accessor unrevoked — the
proxy object created for the root (address 2) still has its revoked flag
false after produceProxy exits, because the revocation loop sits inside
the try block, not in the finally. -/
theorem revocation_missed_on_error :
    (produceProxy exMachine 1 [.throwErr] .retUndef).1 = .error .userError ∧
    (produceProxy exMachine 1 [.throwErr] .retUndef).2.heap.get? 2 =
      some (.proxyObj 0 false) := by
  exact ⟨rfl, rfl⟩

end Immer

namespace Immer

theorem state?_lt (m : Machine) (j : StateId) (st : DraftState)
    (h : m.state? j = some st) : j < m.states.length := by
  by_contra hc
  rw [Machine.state?, List.get?_len_le (Nat.le_of_not_lt hc)] at h
  exact Option.noConfusion h

theorem heap_lt (m : Machine) (a : Addr) (o : HeapObj)
    (h : m.heap.get? a = some o) : a < m.heap.length := by
  by_contra hc
  rw [List.get?_len_le (Nat.le_of_not_lt hc)] at h
  exact Option.noConfusion h

theorem mcStep_heap_len (m : Machine) (sid : StateId) (st : DraftState) :
    (mcStep m sid st).heap.length = m.heap.length + 1 := by
  simp [mcStep]

theorem mcStep_states_len (m : Machine) (sid : StateId) (st : DraftState) :
    (mcStep m sid st).states.length = m.states.length := by
  simp [mcStep]

theorem mcStep_registry (m : Machine) (sid : StateId) (st : DraftState) :
    (mcStep m sid st).registry = m.registry := rfl

theorem mcStep_heap_lt (m : Machine) (sid : StateId) (st : DraftState) (a : Addr)
    (ha : a < m.heap.length) :
    (mcStep m sid st).heap.get? a = m.heap.get? a :=
  List.get?_append ha

theorem mcStep_heap_at (m : Machine) (sid : StateId) (st : DraftState) :
    (mcStep m sid st).heap.get? m.heap.length = some (.container (mcCopy m st)) :=
  List.get?_concat_length _ _

theorem mcStep_state_self (m : Machine) (sid : StateId) (st : DraftState)
    (hst : m.state? sid = some st) :
    (mcStep m sid st).state? sid =
      some { st with modified := true, copy := some m.heap.length } :=
  List.get?_set_eq_of_lt _ (state?_lt m sid st hst)

theorem mcStep_state_ne (m : Machine) (sid : StateId) (st : DraftState) (j : StateId)
    (hj : j ≠ sid) : (mcStep m sid st).state? j = m.state? j :=
  List.get?_set_ne _ _ (fun hc => hj hc.symm)

theorem markChangedAux_heap_pres (fuel : Nat) (m : Machine) (sid : StateId) (a : Addr)
    (ha : a < m.heap.length) :
    (markChangedAux fuel m sid).heap.get? a = m.heap.get? a := by
  induction fuel generalizing m sid with
  | zero => rfl
  | succ fuel ih =>
    simp only [markChangedAux]
    split
    · rfl
    · rename_i st hst
      split
      · rfl
      · split
        · exact mcStep_heap_lt m sid st a ha
        · rename_i p hp
          rw [ih _ _ (by rw [mcStep_heap_len]; exact Nat.lt_succ_of_lt ha)]
          exact mcStep_heap_lt m sid st a ha

theorem markChangedAux_heap_mono (fuel : Nat) (m : Machine) (sid : StateId) :
    m.heap.length ≤ (markChangedAux fuel m sid).heap.length := by
  induction fuel generalizing m sid with
  | zero => exact Nat.le_refl _
  | succ fuel ih =>
    simp only [markChangedAux]
    split
    · exact Nat.le_refl _
    · rename_i st hst
      split
      · exact Nat.le_refl _
      · split
        · rw [mcStep_heap_len]; exact Nat.le_succ _
        · rename_i p hp
          refine Nat.le_trans ?_ (ih _ _)
          rw [mcStep_heap_len]; exact Nat.le_succ _

theorem markChangedAux_states_length (fuel : Nat) (m : Machine) (sid : StateId) :
    (markChangedAux fuel m sid).states.length = m.states.length := by
  induction fuel generalizing m sid with
  | zero => rfl
  | succ fuel ih =>
    simp only [markChangedAux]
    split
    · rfl
    · rename_i st hst
      split
      · rfl
      · split
        · exact mcStep_states_len m _ st
        · rename_i p hp
          rw [ih, mcStep_states_len]

theorem markChangedAux_registry (fuel : Nat) (m : Machine) (sid : StateId) :
    (markChangedAux fuel m sid).registry = m.registry := by
  induction fuel generalizing m sid with
  | zero => rfl
  | succ fuel ih =>
    simp only [markChangedAux]
    split
    · rfl
    · rename_i st hst
      split
      · rfl
      · split
        · rfl
        · rename_i p hp
          rw [ih]
          rfl

theorem markChangedAux_heap_new (fuel : Nat) (m : Machine) (sid : StateId) :
    ∀ a, m.heap.length ≤ a → a < (markChangedAux fuel m sid).heap.length →
      ∃ c, (markChangedAux fuel m sid).heap.get? a = some (.container c) := by
  induction fuel generalizing m sid with
  | zero =>
    intro a h1 h2
    exact absurd h2 (Nat.not_lt_of_le h1)
  | succ fuel ih =>
    simp only [markChangedAux]
    split
    · intro a h1 h2; exact absurd h2 (Nat.not_lt_of_le h1)
    · rename_i st hst
      split
      · intro a h1 h2; exact absurd h2 (Nat.not_lt_of_le h1)
      · split
        · intro a h1 h2
          rw [mcStep_heap_len] at h2
          have ha : a = m.heap.length := Nat.le_antisymm (Nat.lt_succ_iff.mp h2) h1
          subst ha
          exact ⟨_, mcStep_heap_at m _ st⟩
        · rename_i p hp
          intro a h1 h2
          by_cases hlt : a < m.heap.length + 1
          · have ha : a = m.heap.length := Nat.le_antisymm (Nat.lt_succ_iff.mp hlt) h1
            subst ha
            rw [markChangedAux_heap_pres _ _ _ _ (by rw [mcStep_heap_len]; exact Nat.lt_succ_self _)]
            exact ⟨_, mcStep_heap_at m _ st⟩
          · refine ih _ _ a ?_ h2
            rw [mcStep_heap_len]
            exact Nat.le_of_not_lt hlt

end Immer

namespace Immer

theorem markChangedAux_state_evolution (fuel : Nat) (m : Machine) (sid : StateId) :
    ∀ j st, m.state? j = some st →
      ∃ st', (markChangedAux fuel m sid).state? j = some st' ∧
        st'.parent = st.parent ∧ st'.base = st.base ∧ st'.proxies = st.proxies ∧
        st'.finalized = st.finalized ∧
        (st.modified = true → st' = st) ∧
        (st' = st ∨ (st.modified = false ∧ st'.modified = true ∧
          ∃ ca, st'.copy = some ca ∧ m.heap.length ≤ ca ∧
            ∃ c, (markChangedAux fuel m sid).heap.get? ca = some (.container c))) := by
  induction fuel generalizing m sid with
  | zero =>
    intro j st h
    exact ⟨st, h, rfl, rfl, rfl, rfl, fun _ => rfl, Or.inl rfl⟩
  | succ fuel ih =>
    intro j st h
    simp only [markChangedAux]
    split
    · exact ⟨st, h, rfl, rfl, rfl, rfl, fun _ => rfl, Or.inl rfl⟩
    · rename_i st₀ hst₀
      split
      · exact ⟨st, h, rfl, rfl, rfl, rfl, fun _ => rfl, Or.inl rfl⟩
      · rename_i hmod₀
        have hmod₀' : st₀.modified = false := by
          cases hm : st₀.modified
          · rfl
          · exact absurd hm hmod₀
        split
        · -- parent none: result is the one-step machine
          by_cases hj : j = sid
          · subst hj
            have hss : st = st₀ := by
              rw [hst₀] at h; exact (Option.some.inj h).symm
            subst hss
            refine ⟨{ st with modified := true, copy := some m.heap.length },
              mcStep_state_self m j st h, rfl, rfl, rfl, rfl, ?_, ?_⟩
            · intro hc; rw [hc] at hmod₀'; exact Bool.noConfusion hmod₀'
            · exact Or.inr ⟨hmod₀', rfl, m.heap.length, rfl, Nat.le_refl _,
                _, mcStep_heap_at m j st⟩
          · exact ⟨st, (mcStep_state_ne m sid st₀ j hj).trans h, rfl, rfl, rfl, rfl,
              fun _ => rfl, Or.inl rfl⟩
        · -- parent some p: recursion on the one-step machine
          rename_i p hp
          by_cases hj : j = sid
          · subst hj
            have hss : st = st₀ := by
              rw [hst₀] at h; exact (Option.some.inj h).symm
            subst hss
            obtain ⟨st', hst', hpar, hbase, hprox, hfin, hmono, _⟩ :=
              ih (mcStep m j st) p j _ (mcStep_state_self m j st h)
            have hse : st' = { st with modified := true, copy := some m.heap.length } :=
              hmono rfl
            subst hse
            refine ⟨_, hst', rfl, rfl, rfl, rfl, ?_, ?_⟩
            · intro hc; rw [hc] at hmod₀'; exact Bool.noConfusion hmod₀'
            · refine Or.inr ⟨hmod₀', rfl, m.heap.length, rfl, Nat.le_refl _, ?_⟩
              have hh := mcStep_heap_at m j st
              rw [← markChangedAux_heap_pres fuel (mcStep m j st) p m.heap.length
                (by rw [mcStep_heap_len]; exact Nat.lt_succ_self _)] at hh
              exact ⟨_, hh⟩
          · obtain ⟨st', hst', hpar, hbase, hprox, hfin, hmono, hdisj⟩ :=
              ih (mcStep m sid st₀) p j st ((mcStep_state_ne m sid st₀ j hj).trans h)
            refine ⟨st', hst', hpar, hbase, hprox, hfin, hmono, ?_⟩
            rcases hdisj with heq | ⟨h1, h2, ca, h3, h4, c, h5⟩
            · exact Or.inl heq
            · refine Or.inr ⟨h1, h2, ca, h3, ?_, c, h5⟩
              refine Nat.le_trans ?_ h4
              rw [mcStep_heap_len]
              exact Nat.le_succ _

end Immer

namespace Immer

theorem state?_of_lt (m : Machine) (j : StateId) (h : j < m.states.length) :
    ∃ st, m.state? j = some st := by
  cases hh : m.states.get? j with
  | none => exact absurd (List.get?_eq_none.mp hh) (Nat.not_le_of_lt h)
  | some st => exact ⟨st, hh⟩

theorem parentsEx_of_parentsLt (m : Machine) (hpl : ParentsLt m) : ParentsEx m := by
  intro sid st p hst hp
  exact state?_of_lt m p (Nat.lt_trans (hpl sid st p hst hp) (state?_lt m sid st hst))

theorem parentsLt_of_B (m : Machine) (h : parentsLtB m = true) : ParentsLt m := by
  intro sid st p hst hp
  have hlt : sid < m.states.length := state?_lt m sid st hst
  have h₀ := List.all_eq_true.mp h _ (List.mem_range.mpr hlt)
  rw [show m.states.get? sid = some st from hst] at h₀
  have h₁ : (match st.parent with
      | some q => decide (q < sid)
      | none => true) = true := h₀
  rw [hp] at h₁
  exact of_decide_eq_true h₁

theorem upClosed_of_B (m : Machine) (h : upClosedB m = true) : UpClosed m := by
  intro sid st p pst hst hmod hp hpst
  have hlt : sid < m.states.length := state?_lt m sid st hst
  have h₀ := List.all_eq_true.mp h _ (List.mem_range.mpr hlt)
  rw [show m.states.get? sid = some st from hst] at h₀
  have h₁ : (if st.modified then
      (match st.parent with
        | some q => (match m.states.get? q with
            | some qst => qst.modified
            | none => true)
        | none => true)
      else true) = true := h₀
  rw [hmod, if_pos rfl] at h₁
  rw [hp] at h₁
  have h₂ : (match m.states.get? p with
      | some qst => qst.modified
      | none => true) = true := h₁
  rw [show m.states.get? p = some pst from hpst] at h₂
  exact h₂

theorem copiesMod_of_B (m : Machine) (h : copiesModB m = true) :
    ∀ sid st, m.state? sid = some st → st.modified = true → st.copy ≠ none := by
  intro sid st hst hmod
  have hmem : st ∈ m.states := by
    have := List.get?_mem hst
    exact this
  have h₀ := List.all_eq_true.mp h _ hmem
  rw [hmod] at h₀
  simp at h₀
  intro hc
  rw [hc] at h₀
  simp at h₀

theorem upClosed_almostUp (m : Machine) (x : StateId) (h : UpClosed m) : AlmostUp m x := by
  intro sid st p pst hst hmod hp hpst
  exact Or.inl (h sid st p pst hst hmod hp hpst)

theorem mcStep_parentsLt (m : Machine) (sid : StateId) (st : DraftState)
    (hst : m.state? sid = some st) (hpl : ParentsLt m) : ParentsLt (mcStep m sid st) := by
  intro j stj p hstj hp
  by_cases hj : j = sid
  · subst hj
    rw [mcStep_state_self m j st hst] at hstj
    have := Option.some.inj hstj
    rw [← this] at hp
    exact hpl j st p hst hp
  · rw [mcStep_state_ne m sid st j hj] at hstj
    exact hpl j stj p hstj hp

theorem markChangedAux_parentsLt (fuel : Nat) (m : Machine) (sid : StateId)
    (hpl : ParentsLt m) : ParentsLt (markChangedAux fuel m sid) := by
  induction fuel generalizing m sid with
  | zero => exact hpl
  | succ fuel ih =>
    simp only [markChangedAux]
    split
    · exact hpl
    · rename_i st hst
      split
      · exact hpl
      · split
        · exact mcStep_parentsLt m sid st hst hpl
        · exact ih _ _ (mcStep_parentsLt m sid st hst hpl)

theorem markChangedAux_state_gt (fuel : Nat) (m : Machine) (sid : StateId)
    (hpl : ParentsLt m) (j : StateId) (hj : sid < j) :
    (markChangedAux fuel m sid).state? j = m.state? j := by
  induction fuel generalizing m sid with
  | zero => rfl
  | succ fuel ih =>
    simp only [markChangedAux]
    split
    · rfl
    · rename_i st hst
      split
      · rfl
      · split
        · exact mcStep_state_ne m sid st j (Nat.ne_of_gt hj)
        · rename_i p hp
          rw [ih _ _ (mcStep_parentsLt m sid st hst hpl)
            (Nat.lt_trans (hpl sid st p hst hp) hj)]
          exact mcStep_state_ne m sid st j (Nat.ne_of_gt hj)

theorem markChangedAux_upClosed (fuel : Nat) (m : Machine) (sid : StateId)
    (hpl : ParentsLt m) (hfuel : sid < fuel) (hau : AlmostUp m sid) :
    UpClosed (markChangedAux fuel m sid) ∧
    (∀ st, m.state? sid = some st →
      ∃ st', (markChangedAux fuel m sid).state? sid = some st' ∧ st'.modified = true) := by
  induction fuel generalizing m sid with
  | zero => exact absurd hfuel (Nat.not_lt_zero sid)
  | succ fuel ih =>
    simp only [markChangedAux]
    split
    · rename_i hst₀
      constructor
      · intro j st p pst hst hmod hp hpst
        rcases hau j st p pst hst hmod hp hpst with h | h
        · exact h
        · subst h
          rw [hst₀] at hpst
          exact Option.noConfusion hpst
      · intro st hst
        rw [hst₀] at hst
        exact Option.noConfusion hst
    · rename_i st₀ hst₀
      split
      · rename_i hmod₀
        constructor
        · intro j st p pst hst hmod hp hpst
          rcases hau j st p pst hst hmod hp hpst with h | h
          · exact h
          · subst h
            rw [hst₀] at hpst
            rw [← Option.some.inj hpst]
            exact hmod₀
        · intro st hst
          rw [hst₀] at hst
          exact ⟨st₀, hst₀, hmod₀⟩
      · rename_i hmod₀
        have hmod₀' : st₀.modified = false := by
          cases hm : st₀.modified
          · rfl
          · exact absurd hm hmod₀
        split
        · -- parent none
          rename_i hpar
          constructor
          · intro j st p pst hst hmod hp hpst
            by_cases hj : j = sid
            · subst hj
              rw [mcStep_state_self m j st₀ hst₀] at hst
              rw [← Option.some.inj hst] at hp
              rw [hpar] at hp
              exact Option.noConfusion hp
            · rw [mcStep_state_ne m sid st₀ j hj] at hst
              by_cases hps : p = sid
              · subst hps
                rw [mcStep_state_self m p st₀ hst₀] at hpst
                rw [← Option.some.inj hpst]
              · rw [mcStep_state_ne m sid st₀ p hps] at hpst
                rcases hau j st p pst hst hmod hp hpst with h | h
                · exact h
                · exact absurd h hps
          · intro st hst
            exact ⟨_, mcStep_state_self m sid st₀ hst₀, rfl⟩
        · -- parent some p
          rename_i p hpar
          have hpl₁ : ParentsLt (mcStep m sid st₀) := mcStep_parentsLt m sid st₀ hst₀ hpl
          have hplt : p < sid := hpl sid st₀ p hst₀ hpar
          have hau₁ : AlmostUp (mcStep m sid st₀) p := by
            intro j st q qst hst hmod hq hqst
            by_cases hj : j = sid
            · subst hj
              rw [mcStep_state_self m j st₀ hst₀] at hst
              rw [← Option.some.inj hst] at hq
              rw [hpar] at hq
              exact Or.inr (Option.some.inj hq).symm
            · rw [mcStep_state_ne m sid st₀ j hj] at hst
              by_cases hqs : q = sid
              · subst hqs
                rw [mcStep_state_self m q st₀ hst₀] at hqst
                rw [← Option.some.inj hqst]
                exact Or.inl rfl
              · rw [mcStep_state_ne m sid st₀ q hqs] at hqst
                rcases hau j st q qst hst hmod hq hqst with h | h
                · exact Or.inl h
                · exact absurd h hqs
          obtain ⟨hup, _⟩ := ih (mcStep m sid st₀) p hpl₁
            (Nat.lt_of_lt_of_le hplt (Nat.lt_succ_iff.mp hfuel)) hau₁
          refine ⟨hup, ?_⟩
          intro st hst
          -- sid is modified in the one-step machine and stays so
          obtain ⟨st', hst', _, _, _, _, hmono, _⟩ :=
            markChangedAux_state_evolution fuel (mcStep m sid st₀) p sid _
              (mcStep_state_self m sid st₀ hst₀)
          exact ⟨st', hst', by rw [hmono rfl]⟩

end Immer

namespace Immer

theorem markChanged_mod (m : Machine) (sid : StateId) (st : DraftState)
    (hst : m.state? sid = some st) (hmod : st.modified = true) :
    markChanged m sid = m := by
  unfold markChanged
  simp only [markChangedAux]
  rw [hst]
  simp [hmod]

theorem markChanged_unmod (m : Machine) (sid : StateId) (st : DraftState)
    (hst : m.state? sid = some st) (hpl : ParentsLt m) (hmod : st.modified = false) :
    (markChanged m sid).state? sid =
      some { st with modified := true, copy := some m.heap.length } ∧
    (markChanged m sid).heap.get? m.heap.length = some (.container (mcCopy m st)) := by
  unfold markChanged
  simp only [markChangedAux]
  rw [hst]
  simp only [hmod, Bool.false_eq_true, if_false]
  split
  · exact ⟨mcStep_state_self m sid st hst, mcStep_heap_at m sid st⟩
  · rename_i p hp
    have hpl₁ := mcStep_parentsLt m sid st hst hpl
    have hplt : p < sid := hpl sid st p hst hp
    constructor
    · rw [markChangedAux_state_gt sid (mcStep m sid st) p hpl₁ sid hplt]
      exact mcStep_state_self m sid st hst
    · rw [markChangedAux_heap_pres sid (mcStep m sid st) p m.heap.length
        (by rw [mcStep_heap_len]; exact Nat.lt_succ_self _)]
      exact mcStep_heap_at m sid st

/-- C7: when an unmodified state escalates, the freshly allocated copy is
the shallow copy of its base with every cached child draft assigned over
it, so every cached key reads back as exactly that child draft reference
through the new copy; escalating an already-modified state changes
nothing (idempotent). -/
theorem markChanged_overlays_children (m : Machine) (sid : StateId) (st : DraftState)
    (hst : m.state? sid = some st) (hpl : ParentsLt m) :
    (st.modified = true → markChanged m sid = m) ∧
    (st.modified = false →
      (markChanged m sid).state? sid =
        some { st with modified := true, copy := some m.heap.length } ∧
      (markChanged m sid).heap.get? m.heap.length = some (.container (mcCopy m st)) ∧
      ((st.proxies.map Prod.fst).Nodup →
        ∀ k pa, lookupProxy st.proxies k = some pa →
          (markChanged m sid).readAddr m.heap.length k = .ref pa)) := by
  constructor
  · intro hmod
    exact markChanged_mod m sid st hst hmod
  · intro hmod
    obtain ⟨h1, h2⟩ := markChanged_unmod m sid st hst hpl hmod
    refine ⟨h1, h2, ?_⟩
    intro hnd k pa hk
    rw [Machine.readAddr, Machine.container?, h2]
    show (lookupEntry (mcCopy m st).entries k).getD JSValue.undef = JSValue.ref pa
    rw [show (mcCopy m st).entries =
      overlayProxies ((m.container? st.base).getD ⟨.obj, []⟩).entries st.proxies from rfl,
      lookupEntry_overlay st.proxies _ k pa hnd hk]
    rfl

/-- Witness for C7: escalating the root of the example machine after one
read overlays the cached child draft (proxy address 3) onto the new
copy, and key 0 of the copy reads back as that draft. -/
theorem markChanged_overlays_children_witness :
    (markChanged exDraft2 0).readAddr exDraft2.heap.length 0 = .ref 3 :=
  ((markChanged_overlays_children exDraft2 0 ⟨false, false, none, 1, none, [(0, 3)]⟩
    (by decide) (parentsLt_of_B _ (by decide))).2 (by decide)).2.2 (by decide) 0 3 (by decide)

/-- C8: on an unmodified state, a read of a key whose base value is a
plain container creates and caches a child draft; the value handed out
is a live draft proxy, and an immediately repeated read returns the
identical handle from the cache without touching the machine. -/
theorem get_child_stable (m : Machine) (sid : StateId) (st : DraftState) (k : Key)
    (b : Addr) (c : Container)
    (hst : m.state? sid = some st) (hmod : st.modified = false)
    (hmiss : lookupProxy st.proxies k = none)
    (hread : m.readAddr st.base k = .ref b)
    (hcont : m.heap.get? b = some (.container c)) :
    (get m sid k).2 = .ref m.heap.length ∧
    (get m sid k).1.heap.get? m.heap.length = some (.proxyObj m.states.length false) ∧
    get (get m sid k).1 sid k = ((get m sid k).1, .ref m.heap.length) := by
  have hp : m.isProxy (.ref b) = false := by
    rw [Machine.isProxy, hcont]
  have hpa : m.isProxyable (.ref b) = true := by
    rw [Machine.isProxyable, hcont]
  have hres : get m sid k =
      ({ heap := m.heap ++ [.proxyObj m.states.length false],
         states := (m.states ++ [createState (some sid) b]).set sid
           { st with proxies := setProxy st.proxies k m.heap.length },
         registry := m.registry ++ [m.heap.length] }, .ref m.heap.length) := by
    rw [get]
    rw [hst]
    simp only [hmod, Bool.false_eq_true, if_false, hmiss, hread, hp, hpa, and_self, if_true]
    rfl
  have hst₂ : (get m sid k).1.state? sid =
      some { st with proxies := setProxy st.proxies k m.heap.length } := by
    rw [hres]
    show ((m.states ++ [createState (some sid) b]).set sid _).get? sid = _
    refine List.get?_set_eq_of_lt _ ?_
    rw [List.length_append]
    exact Nat.lt_succ_of_lt (state?_lt m sid st hst)
  refine ⟨by rw [hres], ?_, ?_⟩
  · rw [hres]
    exact List.get?_concat_length _ _
  · rw [get, hst₂]
    simp only [hmod, Bool.false_eq_true, if_false]
    rw [lookupProxy_setProxy_self]

end Immer

namespace Immer

/-- Witness for C8: reading key 0 of the example root draft twice
returns the same child-draft handle (proxy address 3) both times, the
second time from the cache with the machine untouched. -/
theorem get_child_stable_witness :
    (get exDraft 0 0).2 = .ref 3 ∧
    (get exDraft 0 0).1.heap.get? 3 = some (.proxyObj 1 false) ∧
    get (get exDraft 0 0).1 0 0 = ((get exDraft 0 0).1, .ref 3) := by
  have h := get_child_stable exDraft 0 (createState none 1) 0 0 ⟨.obj, [(0, .prim 1)]⟩
    (by decide) (by decide) (by decide) (by decide) (by decide)
  exact h

end Immer

namespace Immer

theorem lookupEntry_mem (es : List (Key × JSValue)) (k : Key) (v : JSValue)
    (h : lookupEntry es k = some v) : (k, v) ∈ es := by
  induction es with
  | nil => exact Option.noConfusion h
  | cons hd tl ih =>
    obtain ⟨k₁, v₁⟩ := hd
    by_cases hk : k₁ = k
    · subst hk
      rw [lookupEntry, if_pos rfl] at h
      rw [← Option.some.inj h]
      exact List.mem_cons_self _ _
    · rw [lookupEntry, if_neg hk] at h
      exact List.mem_cons_of_mem _ (ih h)

theorem Steps.rfl (m : Machine) : Steps m m := by
  refine ⟨Nat.le_refl _, ?_⟩
  intro j st st' h1 h2 hm
  rw [h1] at h2
  rw [← Option.some.inj h2]
  exact hm

theorem Steps.trans {m₁ m₂ m₃ : Machine} (h1 : Steps m₁ m₂) (h2 : Steps m₂ m₃) :
    Steps m₁ m₃ := by
  refine ⟨Nat.le_trans h1.1 h2.1, ?_⟩
  intro j st st' hst hst' hmod
  obtain ⟨stm, hstm⟩ := state?_of_lt m₂ j (Nat.lt_of_lt_of_le (state?_lt _ _ _ hst) h1.1)
  exact h2.2 j stm st' hstm hst' (h1.2 j st stm hst hstm hmod)

theorem steps_of_states_eq (m m' : Machine) (h : m'.states = m.states) : Steps m m' := by
  refine ⟨by rw [h], ?_⟩
  intro j st st' hst hst' hmod
  rw [Machine.state?, h] at hst'
  rw [Machine.state?] at hst
  rw [hst] at hst'
  rw [← Option.some.inj hst']
  exact hmod

theorem parentsLt_of_states_eq (m m' : Machine) (h : m'.states = m.states)
    (hpl : ParentsLt m) : ParentsLt m' := by
  intro sid st p hst hp
  rw [Machine.state?, h] at hst
  exact hpl sid st p hst hp

theorem upClosed_of_states_eq (m m' : Machine) (h : m'.states = m.states)
    (hup : UpClosed m) : UpClosed m' := by
  intro sid st p pst hst hmod hp hpst
  rw [Machine.state?, h] at hst hpst
  exact hup sid st p pst hst hmod hp hpst

theorem allUnmod_of_states_eq (m m' : Machine) (h : m'.states = m.states)
    (hau : AllUnmod m) : AllUnmod m' := by
  intro sid st hst
  rw [Machine.state?, h] at hst
  exact hau sid st hst

theorem writeAddr_states (m : Machine) (a : Addr) (k : Key) (v : JSValue) :
    (m.writeAddr a k v).states = m.states := by
  rw [Machine.writeAddr]
  split <;> rfl

theorem deleteAddr_states (m : Machine) (a : Addr) (k : Key) :
    (m.deleteAddr a k).states = m.states := by
  rw [Machine.deleteAddr]
  split <;> rfl

theorem writeAddr_registry (m : Machine) (a : Addr) (k : Key) (v : JSValue) :
    (m.writeAddr a k v).registry = m.registry := by
  rw [Machine.writeAddr]
  split <;> rfl

theorem deleteAddr_registry (m : Machine) (a : Addr) (k : Key) :
    (m.deleteAddr a k).registry = m.registry := by
  rw [Machine.deleteAddr]
  split <;> rfl

theorem createProxy_state_lt (m : Machine) (par : Option StateId) (b : Addr)
    (j : StateId) (hj : j < m.states.length) :
    (createProxy m par b).1.state? j = m.state? j :=
  List.get?_append hj

theorem createProxy_state_new (m : Machine) (par : Option StateId) (b : Addr) :
    (createProxy m par b).1.state? m.states.length = some (createState par b) :=
  List.get?_concat_length _ _

theorem createProxy_states_length (m : Machine) (par : Option StateId) (b : Addr) :
    (createProxy m par b).1.states.length = m.states.length + 1 := by
  show (m.states ++ [createState par b]).length = _
  rw [List.length_append]
  rfl

theorem createProxy_steps (m : Machine) (par : Option StateId) (b : Addr) :
    Steps m (createProxy m par b).1 := by
  refine ⟨by rw [createProxy_states_length]; exact Nat.le_succ _, ?_⟩
  intro j st st' hst hst'
  rw [createProxy_state_lt m par b j (state?_lt m j st hst)] at hst'
  rw [hst] at hst'
  rw [← Option.some.inj hst']
  exact id

theorem createProxy_parentsLt (m : Machine) (par : Option StateId) (b : Addr)
    (hpl : ParentsLt m) (hpar : ∀ p, par = some p → p < m.states.length) :
    ParentsLt (createProxy m par b).1 := by
  intro j st p hst hp
  by_cases hj : j < m.states.length
  · rw [createProxy_state_lt m par b j hj] at hst
    exact hpl j st p hst hp
  · have hj2 : j < m.states.length + 1 := by
      have := state?_lt _ j st hst
      rw [createProxy_states_length] at this
      exact this
    have hj3 : j = m.states.length := Nat.le_antisymm (Nat.lt_succ_iff.mp hj2) (Nat.le_of_not_lt hj)
    subst hj3
    rw [createProxy_state_new] at hst
    rw [← Option.some.inj hst] at hp
    exact hpar p hp

theorem createProxy_upClosed (m : Machine) (par : Option StateId) (b : Addr)
    (hpl : ParentsLt m) (hup : UpClosed m) : UpClosed (createProxy m par b).1 := by
  intro j st p pst hst hmod hp hpst
  by_cases hj : j < m.states.length
  · rw [createProxy_state_lt m par b j hj] at hst
    have hplt : p < j := hpl j st p hst hp
    rw [createProxy_state_lt m par b p (Nat.lt_trans hplt hj)] at hpst
    exact hup j st p pst hst hmod hp hpst
  · have hj2 : j < m.states.length + 1 := by
      have := state?_lt _ j st hst
      rw [createProxy_states_length] at this
      exact this
    have hj3 : j = m.states.length := Nat.le_antisymm (Nat.lt_succ_iff.mp hj2) (Nat.le_of_not_lt hj)
    subst hj3
    rw [createProxy_state_new] at hst
    rw [← Option.some.inj hst] at hmod
    exact Bool.noConfusion hmod

theorem createProxy_allUnmod (m : Machine) (par : Option StateId) (b : Addr)
    (hau : AllUnmod m) : AllUnmod (createProxy m par b).1 := by
  intro j st hst
  by_cases hj : j < m.states.length
  · rw [createProxy_state_lt m par b j hj] at hst
    exact hau j st hst
  · have hj2 : j < m.states.length + 1 := by
      have := state?_lt _ j st hst
      rw [createProxy_states_length] at this
      exact this
    have hj3 : j = m.states.length := Nat.le_antisymm (Nat.lt_succ_iff.mp hj2) (Nat.le_of_not_lt hj)
    subst hj3
    rw [createProxy_state_new] at hst
    rw [← Option.some.inj hst]
    rfl

theorem set_state_spec (m : Machine) (sid : StateId) (st st' : DraftState)
    (hst : m.state? sid = some st) :
    ({ m with states := m.states.set sid st' } : Machine).state? sid = some st' ∧
    ∀ j, j ≠ sid → ({ m with states := m.states.set sid st' } : Machine).state? j = m.state? j := by
  constructor
  · exact List.get?_set_eq_of_lt _ (state?_lt m sid st hst)
  · intro j hj
    exact List.get?_set_ne _ _ (fun hc => hj hc.symm)

theorem set_state_bundle (m : Machine) (sid : StateId) (st st' : DraftState)
    (hst : m.state? sid = some st) (hpar : st'.parent = st.parent)
    (hmod : st'.modified = st.modified) (hpl : ParentsLt m) :
    ParentsLt { m with states := m.states.set sid st' } ∧
    (UpClosed m → UpClosed { m with states := m.states.set sid st' }) ∧
    Steps m { m with states := m.states.set sid st' } := by
  obtain ⟨hself, hother⟩ := set_state_spec m sid st st' hst
  refine ⟨?_, ?_, ?_⟩
  · intro j stj p hstj hp
    by_cases hj : j = sid
    · subst hj
      rw [hself] at hstj
      rw [← Option.some.inj hstj, hpar] at hp
      exact hpl j st p hst hp
    · rw [hother j hj] at hstj
      exact hpl j stj p hstj hp
  · intro hup j stj p pst hstj hmodj hp hpst
    by_cases hj : j = sid
    · subst hj
      rw [hself] at hstj
      rw [← Option.some.inj hstj] at hmodj hp
      rw [hmod] at hmodj
      rw [hpar] at hp
      have hplt : p < j := hpl j st p hst hp
      rw [hother p (Nat.ne_of_lt hplt)] at hpst
      exact hup j st p pst hst hmodj hp hpst
    · rw [hother j hj] at hstj
      by_cases hps : p = sid
      · subst hps
        rw [hself] at hpst
        rw [← Option.some.inj hpst, hmod]
        exact hup j stj p st hstj hmodj hp hst
      · rw [hother p hps] at hpst
        exact hup j stj p pst hstj hmodj hp hpst
  · refine ⟨by simp, ?_⟩
    intro j stj stj' hstj hstj' hmodj
    by_cases hj : j = sid
    · subst hj
      rw [hself] at hstj'
      rw [hst] at hstj
      have e1 : st = stj := Option.some.inj hstj
      have e2 : st' = stj' := Option.some.inj hstj'
      rw [← e2, hmod, e1]
      exact hmodj
    · rw [hother j hj] at hstj'
      rw [hstj] at hstj'
      rw [← Option.some.inj hstj']
      exact hmodj

end Immer

namespace Immer

theorem markChanged_steps (m : Machine) (sid : StateId) : Steps m (markChanged m sid) := by
  refine ⟨by rw [markChanged, markChangedAux_states_length], ?_⟩
  intro j st st' hst hst' hmod
  obtain ⟨st'', hst'', _, _, _, _, hmono, _⟩ :=
    markChangedAux_state_evolution (sid+1) m sid j st hst
  rw [markChanged] at hst'
  rw [hst''] at hst'
  rw [← Option.some.inj hst', hmono hmod]
  exact hmod

theorem markChanged_parentsLt (m : Machine) (sid : StateId) (hpl : ParentsLt m) :
    ParentsLt (markChanged m sid) :=
  markChangedAux_parentsLt (sid+1) m sid hpl

theorem markChanged_upClosed (m : Machine) (sid : StateId) (hpl : ParentsLt m)
    (hup : UpClosed m) : UpClosed (markChanged m sid) :=
  (markChangedAux_upClosed (sid+1) m sid hpl (Nat.lt_succ_self sid)
    (upClosed_almostUp m sid hup)).1

theorem set_bundle (m : Machine) (sid : StateId) (k : Key) (v : JSValue)
    (hpl : ParentsLt m) (hup : UpClosed m) :
    ParentsLt (Immer.set m sid k v).1 ∧ UpClosed (Immer.set m sid k v).1 ∧
    Steps m (Immer.set m sid k v).1 := by
  rw [Immer.set]
  split
  · exact ⟨hpl, hup, Steps.rfl m⟩
  · rename_i st hst
    split
    · have hse := writeAddr_states m (st.copy.getD st.base) k v
      exact ⟨parentsLt_of_states_eq _ _ hse hpl, upClosed_of_states_eq _ _ hse hup,
        steps_of_states_eq _ _ hse⟩
    · split
      · exact ⟨hpl, hup, Steps.rfl m⟩
      · have hpl₁ := markChanged_parentsLt m sid hpl
        have hup₁ := markChanged_upClosed m sid hpl hup
        have hsteps₁ := markChanged_steps m sid
        split
        · rename_i st₁ hst₁
          have hse := writeAddr_states (markChanged m sid) (st₁.copy.getD st₁.base) k v
          exact ⟨parentsLt_of_states_eq _ _ hse hpl₁, upClosed_of_states_eq _ _ hse hup₁,
            Steps.trans hsteps₁ (steps_of_states_eq _ _ hse)⟩
        · exact ⟨hpl₁, hup₁, hsteps₁⟩

theorem deleteProperty_bundle (m : Machine) (sid : StateId) (k : Key)
    (hpl : ParentsLt m) (hup : UpClosed m) :
    ParentsLt (deleteProperty m sid k).1 ∧ UpClosed (deleteProperty m sid k).1 ∧
    Steps m (deleteProperty m sid k).1 := by
  rw [deleteProperty]
  have hpl₁ := markChanged_parentsLt m sid hpl
  have hup₁ := markChanged_upClosed m sid hpl hup
  have hsteps₁ := markChanged_steps m sid
  split
  · rename_i st₁ hst₁
    have hse := deleteAddr_states (markChanged m sid) (st₁.copy.getD st₁.base) k
    exact ⟨parentsLt_of_states_eq _ _ hse hpl₁, upClosed_of_states_eq _ _ hse hup₁,
      Steps.trans hsteps₁ (steps_of_states_eq _ _ hse)⟩
  · exact ⟨hpl₁, hup₁, hsteps₁⟩

theorem get_bundle (m : Machine) (sid : StateId) (k : Key)
    (hpl : ParentsLt m) (hup : UpClosed m) :
    ParentsLt (get m sid k).1 ∧ UpClosed (get m sid k).1 ∧
    Steps m (get m sid k).1 := by
  rw [get]
  split
  · exact ⟨hpl, hup, Steps.rfl m⟩
  · rename_i st hst
    have hsid : sid < m.states.length := state?_lt m sid st hst
    split
    · -- modified branch
      split
      · split
        · -- proxy creation plus write into the copy
          rename_i b hvb
          have hpl₁ := createProxy_parentsLt m (some sid) b hpl
            (fun p hp => by rw [← Option.some.inj hp]; exact hsid)
          have hup₁ := createProxy_upClosed m (some sid) b hpl hup
          have hsteps₁ := createProxy_steps m (some sid) b
          have hse := writeAddr_states (createProxy m (some sid) b).1
            (st.copy.getD st.base) k (.ref (createProxy m (some sid) b).2)
          exact ⟨parentsLt_of_states_eq _ _ hse hpl₁, upClosed_of_states_eq _ _ hse hup₁,
            Steps.trans hsteps₁ (steps_of_states_eq _ _ hse)⟩
        · exact ⟨hpl, hup, Steps.rfl m⟩
      · exact ⟨hpl, hup, Steps.rfl m⟩
    · -- unmodified branch
      split
      · exact ⟨hpl, hup, Steps.rfl m⟩
      · split
        · split
          · -- proxy creation plus cache update
            rename_i b hvb
            have hpl₁ := createProxy_parentsLt m (some sid) b hpl
              (fun p hp => by rw [← Option.some.inj hp]; exact hsid)
            have hup₁ := createProxy_upClosed m (some sid) b hpl hup
            have hsteps₁ := createProxy_steps m (some sid) b
            have hst₁ : (createProxy m (some sid) b).1.state? sid = some st := by
              rw [createProxy_state_lt m (some sid) b sid hsid]
              exact hst
            obtain ⟨hpl₂, hup₂, hsteps₂⟩ := set_state_bundle (createProxy m (some sid) b).1
              sid st { st with proxies := setProxy st.proxies k (createProxy m (some sid) b).2 }
              hst₁ rfl rfl hpl₁
            exact ⟨hpl₂, hup₂ hup₁, Steps.trans hsteps₁ hsteps₂⟩
          · exact ⟨hpl, hup, Steps.rfl m⟩
        · exact ⟨hpl, hup, Steps.rfl m⟩

theorem navigate_bundle (path : List Key) (m : Machine) (v : JSValue)
    (hpl : ParentsLt m) (hup : UpClosed m) :
    ParentsLt (navigate m v path).1 ∧ UpClosed (navigate m v path).1 ∧
    Steps m (navigate m v path).1 := by
  induction path generalizing m v with
  | nil => exact ⟨hpl, hup, Steps.rfl m⟩
  | cons hd tl ih =>
    cases v with
    | undef => exact ⟨hpl, hup, Steps.rfl m⟩
    | prim n => exact ⟨hpl, hup, Steps.rfl m⟩
    | ref a =>
      rw [navigate]
      split
      · rename_i sid hh
        obtain ⟨hpl₁, hup₁, hsteps₁⟩ := get_bundle m sid hd hpl hup
        obtain ⟨hpl₂, hup₂, hsteps₂⟩ := ih (get m sid hd).1 (get m sid hd).2 hpl₁ hup₁
        exact ⟨hpl₂, hup₂, Steps.trans hsteps₁ hsteps₂⟩
      · exact ⟨hpl, hup, Steps.rfl m⟩

theorem resolve_fst (m : Machine) (root : Addr) (path : List Key) :
    (resolve m root path).1 = (navigate m (.ref root) path).1 := by
  rw [resolve]
  split
  · split <;> rfl
  · rfl

theorem execCmd_bundle (m : Machine) (root : Addr) (c : Cmd)
    (hpl : ParentsLt m) (hup : UpClosed m) :
    ParentsLt (execCmd m root c).1 ∧ UpClosed (execCmd m root c).1 ∧
    Steps m (execCmd m root c).1 := by
  cases c with
  | readAt path k =>
    rw [execCmd]
    obtain ⟨hpl₁, hup₁, hsteps₁⟩ := navigate_bundle path m (.ref root) hpl hup
    rw [← resolve_fst] at hpl₁ hup₁ hsteps₁
    split
    · rename_i sid hsid
      obtain ⟨hpl₂, hup₂, hsteps₂⟩ := get_bundle (resolve m root path).1 sid k hpl₁ hup₁
      exact ⟨hpl₂, hup₂, Steps.trans hsteps₁ hsteps₂⟩
    · exact ⟨hpl₁, hup₁, hsteps₁⟩
  | writeAt path k v =>
    rw [execCmd]
    obtain ⟨hpl₁, hup₁, hsteps₁⟩ := navigate_bundle path m (.ref root) hpl hup
    rw [← resolve_fst] at hpl₁ hup₁ hsteps₁
    split
    · rename_i sid hsid
      obtain ⟨hpl₂, hup₂, hsteps₂⟩ := set_bundle (resolve m root path).1 sid k v.toValue hpl₁ hup₁
      exact ⟨hpl₂, hup₂, Steps.trans hsteps₁ hsteps₂⟩
    · exact ⟨hpl₁, hup₁, hsteps₁⟩
  | writeDraftAt path k dpath =>
    rw [execCmd]
    obtain ⟨hpl₁, hup₁, hsteps₁⟩ := navigate_bundle path m (.ref root) hpl hup
    rw [← resolve_fst] at hpl₁ hup₁ hsteps₁
    split
    · rename_i sid hsid
      obtain ⟨hpl₂, hup₂, hsteps₂⟩ :=
        navigate_bundle dpath (resolve m root path).1 (.ref root) hpl₁ hup₁
      obtain ⟨hpl₃, hup₃, hsteps₃⟩ := set_bundle
        (navigate (resolve m root path).1 (.ref root) dpath).1 sid k
        (navigate (resolve m root path).1 (.ref root) dpath).2 hpl₂ hup₂
      exact ⟨hpl₃, hup₃, Steps.trans hsteps₁ (Steps.trans hsteps₂ hsteps₃)⟩
    · exact ⟨hpl₁, hup₁, hsteps₁⟩
  | deleteAt path k =>
    rw [execCmd]
    obtain ⟨hpl₁, hup₁, hsteps₁⟩ := navigate_bundle path m (.ref root) hpl hup
    rw [← resolve_fst] at hpl₁ hup₁ hsteps₁
    split
    · rename_i sid hsid
      obtain ⟨hpl₂, hup₂, hsteps₂⟩ := deleteProperty_bundle (resolve m root path).1 sid k hpl₁ hup₁
      exact ⟨hpl₂, hup₂, Steps.trans hsteps₁ hsteps₂⟩
    · exact ⟨hpl₁, hup₁, hsteps₁⟩
  | throwErr => exact ⟨hpl, hup, Steps.rfl m⟩

theorem execProg_bundle (prog : List Cmd) (m : Machine) (root : Addr)
    (hpl : ParentsLt m) (hup : UpClosed m) :
    ParentsLt (execProg m root prog).1 ∧ UpClosed (execProg m root prog).1 ∧
    Steps m (execProg m root prog).1 := by
  induction prog generalizing m with
  | nil => exact ⟨hpl, hup, Steps.rfl m⟩
  | cons c rest ih =>
    rw [execProg]
    obtain ⟨hpl₁, hup₁, hsteps₁⟩ := execCmd_bundle m root c hpl hup
    split
    · rename_i m₁ hc
      have hm₁ : (execCmd m root c).1 = m₁ := by rw [hc]
      rw [hm₁] at hpl₁ hup₁ hsteps₁
      obtain ⟨hpl₂, hup₂, hsteps₂⟩ := ih m₁ hpl₁ hup₁
      exact ⟨hpl₂, hup₂, Steps.trans hsteps₁ hsteps₂⟩
    · rename_i m₁ e hc
      have hm₁ : (execCmd m root c).1 = m₁ := by rw [hc]
      rw [hm₁] at hpl₁ hup₁ hsteps₁
      exact ⟨hpl₁, hup₁, hsteps₁⟩

end Immer

namespace Immer

theorem ancestors_modified_aux (m' : Machine) (hpl : ParentsLt m') (hup : UpClosed m')
    (f : Nat) :
    ∀ sid st, m'.state? sid = some st → st.modified = true →
      ∀ p, p ∈ ancestorsAux f m' sid →
        ∃ pst, m'.state? p = some pst ∧ pst.modified = true := by
  induction f with
  | zero =>
    intro sid st hst hmod p hp
    exact absurd hp (List.not_mem_nil p)
  | succ f ih =>
    intro sid st hst hmod p hp
    rw [ancestorsAux, hst] at hp
    have hp' : p ∈ (match st.parent with
        | some q => q :: ancestorsAux f m' q
        | none => []) := hp
    cases hpar : st.parent with
    | none =>
      rw [hpar] at hp'
      exact absurd hp' (List.not_mem_nil p)
    | some q =>
      rw [hpar] at hp' 
      obtain ⟨qst, hqst⟩ := state?_of_lt m' q
        (Nat.lt_trans (hpl sid st q hst hpar) (state?_lt m' sid st hst))
      have hqmod : qst.modified = true := hup sid st q qst hst hmod hpar hqst
      rcases List.mem_cons.mp hp' with hpq | hpt
      · subst hpq
        exact ⟨qst, hqst, hqmod⟩
      · exact ih q qst hqst hqmod p hpt

/-- C4: with the call invariants in force (parent links well-founded and
upward closure holding, as they do from the moment the root draft is
created), after any sequence of draft operations every state with
modified = true has modified = true on every ancestor up to the root,
and no operation of any further sequence ever resets a modified flag
back to false. -/
theorem upward_closure_monotone (m : Machine) (root : Addr) (prog : List Cmd)
    (hpl : ParentsLt m) (hup : UpClosed m) :
    (∀ sid st, (execProg m root prog).1.state? sid = some st → st.modified = true →
      ∀ p, p ∈ ancestors (execProg m root prog).1 sid →
        ∃ pst, (execProg m root prog).1.state? p = some pst ∧ pst.modified = true) ∧
    (∀ j st st', m.state? j = some st → (execProg m root prog).1.state? j = some st' →
      st.modified = true → st'.modified = true) := by
  obtain ⟨hpl₁, hup₁, hsteps₁⟩ := execProg_bundle prog m root hpl hup
  constructor
  · intro sid st hst hmod p hp
    exact ancestors_modified_aux (execProg m root prog).1 hpl₁ hup₁ (sid + 1)
      sid st hst hmod p hp
  · exact hsteps₁.2

/-- Witness for C4: after the deep write draft[0][0] = 2 on the example
machine, the child state 1 is modified and its sole ancestor (the root
state 0) is modified too. -/
theorem upward_closure_monotone_witness :
    ∃ pst, (execProg exDraft 2 [.writeAt [0] 0 (.prim 2)]).1.state? 0 = some pst ∧
      pst.modified = true :=
  (upward_closure_monotone exDraft 2 [.writeAt [0] 0 (.prim 2)]
    (parentsLt_of_B _ (by decide)) (upClosed_of_B _ (by decide))).1
    1 ⟨true, false, some 0, 0, some 4, []⟩ (by decide) rfl 0 (by decide)

end Immer

namespace Immer

theorem get_read_pres (m : Machine) (sid : StateId) (k : Key) (hau : AllUnmod m) :
    AllUnmod (get m sid k).1 ∧
    (∀ a, a < m.heap.length → (get m sid k).1.heap.get? a = m.heap.get? a) ∧
    m.heap.length ≤ (get m sid k).1.heap.length ∧
    (∀ j st, m.state? j = some st →
      ∃ st', (get m sid k).1.state? j = some st' ∧ st'.base = st.base) := by
  rw [get]
  split
  · exact ⟨hau, fun a _ => rfl, Nat.le_refl _, fun j st h => ⟨st, h, rfl⟩⟩
  · rename_i st hst
    split
    · rename_i hmod
      exact absurd hmod (by simp [hau sid st hst])
    · split
      · exact ⟨hau, fun a _ => rfl, Nat.le_refl _, fun j st h => ⟨st, h, rfl⟩⟩
      · split
        · split
          · rename_i b hvb
            have hsid : sid < m.states.length := state?_lt m sid st hst
            have hspec := set_state_spec (createProxy m (some sid) b).1 sid st
              { st with proxies := setProxy st.proxies k (createProxy m (some sid) b).2 }
              (by rw [createProxy_state_lt m (some sid) b sid hsid]; exact hst)
            refine ⟨?_, ?_, ?_, ?_⟩
            · have hau₁ := createProxy_allUnmod m (some sid) b hau
              intro j stj hstj
              by_cases hj : j = sid
              · subst hj
                rw [hspec.1] at hstj
                rw [← Option.some.inj hstj]
                exact hau j st hst
              · rw [hspec.2 j hj] at hstj
                exact hau₁ j stj hstj
            · intro a ha
              exact List.get?_append ha
            · show m.heap.length ≤ (m.heap ++ [HeapObj.proxyObj m.states.length false]).length
              rw [List.length_append]
              exact Nat.le_succ_of_le (Nat.le_refl _)
            · intro j stj hstj
              by_cases hj : j = sid
              · subst hj
                have heq : st = stj := by
                  rw [hst] at hstj; exact Option.some.inj hstj
                exact ⟨{ st with proxies := setProxy st.proxies k (createProxy m (some j) b).2 },
                  hspec.1, by rw [← heq]⟩
              · refine ⟨stj, ?_, rfl⟩
                rw [hspec.2 j hj]
                rw [createProxy_state_lt m (some sid) b j (state?_lt m j stj hstj)]
                exact hstj
          · exact ⟨hau, fun a _ => rfl, Nat.le_refl _, fun j st h => ⟨st, h, rfl⟩⟩
        · exact ⟨hau, fun a _ => rfl, Nat.le_refl _, fun j st h => ⟨st, h, rfl⟩⟩

theorem navigate_read_pres (path : List Key) (m : Machine) (v : JSValue)
    (hau : AllUnmod m) :
    AllUnmod (navigate m v path).1 ∧
    (∀ a, a < m.heap.length → (navigate m v path).1.heap.get? a = m.heap.get? a) ∧
    m.heap.length ≤ (navigate m v path).1.heap.length ∧
    (∀ j st, m.state? j = some st →
      ∃ st', (navigate m v path).1.state? j = some st' ∧ st'.base = st.base) := by
  induction path generalizing m v with
  | nil => exact ⟨hau, fun a _ => rfl, Nat.le_refl _, fun j st h => ⟨st, h, rfl⟩⟩
  | cons hd tl ih =>
    cases v with
    | undef => exact ⟨hau, fun a _ => rfl, Nat.le_refl _, fun j st h => ⟨st, h, rfl⟩⟩
    | prim n => exact ⟨hau, fun a _ => rfl, Nat.le_refl _, fun j st h => ⟨st, h, rfl⟩⟩
    | ref a =>
      rw [navigate]
      split
      · rename_i sid hh
        obtain ⟨hau₁, hpres₁, hlen₁, hbase₁⟩ := get_read_pres m sid hd hau
        obtain ⟨hau₂, hpres₂, hlen₂, hbase₂⟩ := ih (get m sid hd).1 (get m sid hd).2 hau₁
        refine ⟨hau₂, ?_, Nat.le_trans hlen₁ hlen₂, ?_⟩
        · intro x hx
          rw [hpres₂ x (Nat.lt_of_lt_of_le hx hlen₁), hpres₁ x hx]
        · intro j st hst
          obtain ⟨st₁, hst₁, hb₁⟩ := hbase₁ j st hst
          obtain ⟨st₂, hst₂, hb₂⟩ := hbase₂ j st₁ hst₁
          exact ⟨st₂, hst₂, by rw [hb₂, hb₁]⟩
      · exact ⟨hau, fun a _ => rfl, Nat.le_refl _, fun j st h => ⟨st, h, rfl⟩⟩

theorem execProg_read_pres (prog : List Cmd) (m : Machine) (root : Addr)
    (hau : AllUnmod m)
    (hreads : ∀ c, c ∈ prog → ∃ path k, c = Cmd.readAt path k) :
    AllUnmod (execProg m root prog).1 ∧
    (∀ a, a < m.heap.length → (execProg m root prog).1.heap.get? a = m.heap.get? a) ∧
    m.heap.length ≤ (execProg m root prog).1.heap.length ∧
    (∀ j st, m.state? j = some st →
      ∃ st', (execProg m root prog).1.state? j = some st' ∧ st'.base = st.base) := by
  induction prog generalizing m with
  | nil => exact ⟨hau, fun a _ => rfl, Nat.le_refl _, fun j st h => ⟨st, h, rfl⟩⟩
  | cons c rest ih =>
    obtain ⟨path, k, hc⟩ := hreads c (List.mem_cons_self c rest)
    subst hc
    rw [execProg]
    have hcmd : execCmd m root (Cmd.readAt path k) =
        (match (resolve m root path).2 with
          | .ok sid => ((get (resolve m root path).1 sid k).1, none)
          | .error e => ((resolve m root path).1, some e)) := rfl
    obtain ⟨haun, hpresn, hlenn, hbasen⟩ := navigate_read_pres path m (.ref root) hau
    rw [← resolve_fst] at haun hpresn hlenn hbasen
    rw [hcmd]
    split
    · rename_i m₁ hm
      split at hm
      · rename_i sid hsid
        obtain ⟨haug, hpresg, hleng, hbaseg⟩ := get_read_pres (resolve m root path).1 sid k haun
        have hm₁ : (get (resolve m root path).1 sid k).1 = m₁ := congrArg Prod.fst hm
        rw [hm₁] at haug hpresg hleng hbaseg
        obtain ⟨hau₂, hpres₂, hlen₂, hbase₂⟩ := ih m₁ haug
          (fun c hc => hreads c (List.mem_cons_of_mem _ hc))
        refine ⟨hau₂, ?_, ?_, ?_⟩
        · intro x hx
          rw [hpres₂ x (Nat.lt_of_lt_of_le hx (Nat.le_trans hlenn hleng)),
            hpresg x (Nat.lt_of_lt_of_le hx hlenn), hpresn x hx]
        · exact Nat.le_trans hlenn (Nat.le_trans hleng hlen₂)
        · intro j st hst
          obtain ⟨st₁, hst₁, hb₁⟩ := hbasen j st hst
          obtain ⟨st₂, hst₂, hb₂⟩ := hbaseg j st₁ hst₁
          obtain ⟨st₃, hst₃, hb₃⟩ := hbase₂ j st₂ hst₂
          exact ⟨st₃, hst₃, by rw [hb₃, hb₂, hb₁]⟩
      · exact Option.noConfusion (congrArg Prod.snd hm)
    · rename_i m₁ e hm
      split at hm
      · exact Option.noConfusion (congrArg Prod.snd hm)
      · have hm₁ : (resolve m root path).1 = m₁ := congrArg Prod.fst hm
        rw [hm₁] at haun hpresn hlenn hbasen
        exact ⟨haun, hpresn, hlenn, hbasen⟩

end Immer

namespace Immer

theorem produceCore_readonly (m : Machine) (rootA : Addr) (prog : List Cmd)
    (sid0 : StateId) (st : DraftState)
    (hok : (execProg m rootA prog).2 = none)
    (hproxy : (execProg m rootA prog).1.heap.get? rootA = some (.proxyObj sid0 false))
    (hstate : (execProg m rootA prog).1.state? sid0 = some st)
    (hmod : st.modified = false) :
    (produceCore m rootA prog .retUndef).1 = .ok (.ref st.base) := by
  rw [produceCore, hok]
  rw [if_neg (fun h => h.1 rfl)]
  show Except.ok (finalizeAux ((execProg m rootA prog).1.heap.length + 1)
    (execProg m rootA prog).1 (.ref rootA)).2 = _
  rw [finalizeAux]
  simp only [hproxy, hstate, hmod, Bool.false_eq_true, if_false]

/-- C6: a produce call whose mutation function performs only reads — no
writes, no deletes — and returns nothing yields a result that is
reference-equal to the base value (the structural-sharing guarantee). -/
theorem produce_readonly_returns_base (m₀ : Machine) (baseA : Addr) (prog : List Cmd)
    (hstates : m₀.states = [])
    (hreads : ∀ c, c ∈ prog → ∃ path k, c = Cmd.readAt path k)
    (hok : (execProg (createProxy { m₀ with registry := ([] : List Addr) } none baseA).1
            (createProxy { m₀ with registry := ([] : List Addr) } none baseA).2 prog).2 = none) :
    (produceProxy m₀ baseA prog .retUndef).1 = .ok (.ref baseA) := by
  have hau0 : AllUnmod (createProxy { m₀ with registry := ([] : List Addr) } none baseA).1 := by
    intro j st hstj
    have hs : (createProxy { m₀ with registry := ([] : List Addr) } none baseA).1.states =
        [createState none baseA] := by
      show m₀.states ++ [createState none baseA] = _
      rw [hstates]
      rfl
    rw [Machine.state?, hs] at hstj
    cases j with
    | zero =>
      rw [List.get?_cons_zero] at hstj
      rw [← Option.some.inj hstj]
      rfl
    | succ n =>
      rw [List.get?_cons_succ] at hstj
      simp at hstj
  have hstate0 : (createProxy { m₀ with registry := ([] : List Addr) } none baseA).1.state?
      m₀.states.length = some (createState none baseA) :=
    List.get?_concat_length _ _
  have hproxy0 : (createProxy { m₀ with registry := ([] : List Addr) } none baseA).1.heap.get?
      (createProxy { m₀ with registry := ([] : List Addr) } none baseA).2 =
      some (.proxyObj m₀.states.length false) :=
    List.get?_concat_length _ _
  obtain ⟨hauE, hpresE, hlenE, hbaseE⟩ := execProg_read_pres prog
    (createProxy { m₀ with registry := ([] : List Addr) } none baseA).1
    (createProxy { m₀ with registry := ([] : List Addr) } none baseA).2 hau0 hreads
  obtain ⟨st', hst', hb'⟩ := hbaseE m₀.states.length (createState none baseA) hstate0
  have hproxyE : (execProg (createProxy { m₀ with registry := ([] : List Addr) } none baseA).1
      (createProxy { m₀ with registry := ([] : List Addr) } none baseA).2 prog).1.heap.get?
      (createProxy { m₀ with registry := ([] : List Addr) } none baseA).2 =
      some (.proxyObj m₀.states.length false) := by
    rw [hpresE _ ?_]
    · exact hproxy0
    · show m₀.heap.length < (m₀.heap ++ [HeapObj.proxyObj m₀.states.length false]).length
      rw [List.length_append]
      exact Nat.lt_succ_self _
  have hmod' : st'.modified = false := hauE _ st' hst'
  have hcore := produceCore_readonly
    (createProxy { m₀ with registry := ([] : List Addr) } none baseA).1
    (createProxy { m₀ with registry := ([] : List Addr) } none baseA).2 prog
    m₀.states.length st' hok hproxyE hst' hmod'
  show (produceCore (createProxy { m₀ with registry := ([] : List Addr) } none baseA).1
    (createProxy { m₀ with registry := ([] : List Addr) } none baseA).2 prog .retUndef).1 =
    Except.ok (.ref baseA)
  rw [hcore]
  rw [show st'.base = baseA from hb']

/-- Witness for C6: a produce call over the example machine whose
mutation function reads draft[0] twice and draft[1] once returns the
base reference itself. -/
theorem produce_readonly_returns_base_witness :
    (produceProxy exMachine 1 [.readAt [] 0, .readAt [] 0, .readAt [] 1] .retUndef).1 =
      .ok (.ref 1) :=
  produce_readonly_returns_base exMachine 1 [.readAt [] 0, .readAt [] 0, .readAt [] 1]
    (by decide)
    (by
      intro c hc
      rcases List.mem_cons.mp hc with h | hc
      · exact ⟨[], 0, h⟩
      rcases List.mem_cons.mp hc with h | hc
      · exact ⟨[], 0, h⟩
      rcases List.mem_cons.mp hc with h | hc
      · exact ⟨[], 1, h⟩
      · exact absurd hc (List.not_mem_nil c))
    (by decide)

end Immer

namespace Immer

/-- C2: when the mutation function runs to completion, produce raises
ReturnedAndModified exactly when the returned value is neither undefined
nor the root draft while the root state is modified; and when such a
value is returned with the root unmodified, produce finalizes the
returned value in place of the root. On the error path the result is an
error value carrying no partial result. -/
theorem returned_and_modified_iff (m₀ : Machine) (baseA : Addr) (prog : List Cmd)
    (ret : RetSpec)
    (hexec : (execProg (createProxy { m₀ with registry := ([] : List Addr) } none baseA).1
        (createProxy { m₀ with registry := ([] : List Addr) } none baseA).2 prog).2 = none) :
    ((produceProxy m₀ baseA prog ret).1 = .error .returnedAndModified ↔
      ((evalRet (execProg (createProxy { m₀ with registry := ([] : List Addr) } none baseA).1
          (createProxy { m₀ with registry := ([] : List Addr) } none baseA).2 prog).1
          (createProxy { m₀ with registry := ([] : List Addr) } none baseA).2 ret).2 ≠ .undef ∧
       (evalRet (execProg (createProxy { m₀ with registry := ([] : List Addr) } none baseA).1
          (createProxy { m₀ with registry := ([] : List Addr) } none baseA).2 prog).1
          (createProxy { m₀ with registry := ([] : List Addr) } none baseA).2 ret).2 ≠
         .ref (createProxy { m₀ with registry := ([] : List Addr) } none baseA).2 ∧
       rootModified (evalRet (execProg (createProxy { m₀ with registry := ([] : List Addr) } none baseA).1
          (createProxy { m₀ with registry := ([] : List Addr) } none baseA).2 prog).1
          (createProxy { m₀ with registry := ([] : List Addr) } none baseA).2 ret).1
          (createProxy { m₀ with registry := ([] : List Addr) } none baseA).2 = true)) ∧
    (∀ hu : (evalRet (execProg (createProxy { m₀ with registry := ([] : List Addr) } none baseA).1
          (createProxy { m₀ with registry := ([] : List Addr) } none baseA).2 prog).1
          (createProxy { m₀ with registry := ([] : List Addr) } none baseA).2 ret).2 ≠ .undef,
     ∀ hr : (evalRet (execProg (createProxy { m₀ with registry := ([] : List Addr) } none baseA).1
          (createProxy { m₀ with registry := ([] : List Addr) } none baseA).2 prog).1
          (createProxy { m₀ with registry := ([] : List Addr) } none baseA).2 ret).2 ≠
         .ref (createProxy { m₀ with registry := ([] : List Addr) } none baseA).2,
     rootModified (evalRet (execProg (createProxy { m₀ with registry := ([] : List Addr) } none baseA).1
          (createProxy { m₀ with registry := ([] : List Addr) } none baseA).2 prog).1
          (createProxy { m₀ with registry := ([] : List Addr) } none baseA).2 ret).1
          (createProxy { m₀ with registry := ([] : List Addr) } none baseA).2 = false →
      (produceProxy m₀ baseA prog ret).1 =
        .ok (finalizeAux
          ((evalRet (execProg (createProxy { m₀ with registry := ([] : List Addr) } none baseA).1
              (createProxy { m₀ with registry := ([] : List Addr) } none baseA).2 prog).1
              (createProxy { m₀ with registry := ([] : List Addr) } none baseA).2 ret).1.heap.length + 1)
          (evalRet (execProg (createProxy { m₀ with registry := ([] : List Addr) } none baseA).1
              (createProxy { m₀ with registry := ([] : List Addr) } none baseA).2 prog).1
              (createProxy { m₀ with registry := ([] : List Addr) } none baseA).2 ret).1
          (evalRet (execProg (createProxy { m₀ with registry := ([] : List Addr) } none baseA).1
              (createProxy { m₀ with registry := ([] : List Addr) } none baseA).2 prog).1
              (createProxy { m₀ with registry := ([] : List Addr) } none baseA).2 ret).2).2) := by
  have hshow : (produceProxy m₀ baseA prog ret).1 =
      (produceCore (createProxy { m₀ with registry := ([] : List Addr) } none baseA).1
        (createProxy { m₀ with registry := ([] : List Addr) } none baseA).2 prog ret).1 := rfl
  rw [hshow, produceCore, hexec]
  by_cases hc : (evalRet (execProg (createProxy { m₀ with registry := ([] : List Addr) } none baseA).1
      (createProxy { m₀ with registry := ([] : List Addr) } none baseA).2 prog).1
      (createProxy { m₀ with registry := ([] : List Addr) } none baseA).2 ret).2 ≠ .undef ∧
      (evalRet (execProg (createProxy { m₀ with registry := ([] : List Addr) } none baseA).1
      (createProxy { m₀ with registry := ([] : List Addr) } none baseA).2 prog).1
      (createProxy { m₀ with registry := ([] : List Addr) } none baseA).2 ret).2 ≠
        .ref (createProxy { m₀ with registry := ([] : List Addr) } none baseA).2
  · rw [if_pos hc]
    by_cases hm : rootModified (evalRet (execProg
        (createProxy { m₀ with registry := ([] : List Addr) } none baseA).1
        (createProxy { m₀ with registry := ([] : List Addr) } none baseA).2 prog).1
        (createProxy { m₀ with registry := ([] : List Addr) } none baseA).2 ret).1
        (createProxy { m₀ with registry := ([] : List Addr) } none baseA).2 = true
    · rw [if_pos hm]
      refine ⟨⟨fun _ => ⟨hc.1, hc.2, hm⟩, fun _ => rfl⟩, ?_⟩
      intro hu hr hmf
      rw [hm] at hmf
      exact Bool.noConfusion hmf
    · rw [if_neg hm]
      refine ⟨⟨fun h => Except.noConfusion h, fun h => absurd h.2.2 hm⟩, ?_⟩
      intro hu hr hmf
      rfl
  · rw [if_neg hc]
    refine ⟨⟨fun h => Except.noConfusion h, fun h => absurd ⟨h.1, h.2.1⟩ hc⟩, ?_⟩
    intro hu hr hmf
    exact absurd ⟨hu, hr⟩ hc

/-- Witness for C2: a mutation function that writes draft[1] = 9 and
returns the primitive 5 makes produce raise ReturnedAndModified. -/
theorem returned_and_modified_iff_witness :
    (produceProxy exMachine 1 [.writeAt [] 1 (.prim 9)] (.retPrim 5)).1 =
      .error .returnedAndModified :=
  (returned_and_modified_iff exMachine 1 [.writeAt [] 1 (.prim 9)] (.retPrim 5)
    (by decide)).1.mpr ⟨by decide, by decide, by decide⟩

end Immer

namespace Immer

theorem get?_lt_length {α : Type} (l : List α) (i : Nat) (x : α)
    (h : l.get? i = some x) : i < l.length := by
  by_contra hc
  rw [List.get?_len_le (Nat.le_of_not_lt hc)] at h
  exact Option.noConfusion h

theorem finalize_states_registry : ∀ fuel : Nat,
    (∀ (m : Machine) (v : JSValue),
      (finalizeAux fuel m v).1.states = m.states ∧
      (finalizeAux fuel m v).1.registry = m.registry) ∧
    (∀ (m : Machine) (es : List (Key × JSValue)),
      (finalizeEntries fuel m es).1.states = m.states ∧
      (finalizeEntries fuel m es).1.registry = m.registry) := by
  intro fuel
  induction fuel with
  | zero =>
    constructor
    · intro m v
      rw [finalizeAux]
      exact ⟨rfl, rfl⟩
    · intro m es
      induction es generalizing m with
      | nil =>
        rw [finalizeEntries]
        exact ⟨rfl, rfl⟩
      | cons kv rest ih =>
        obtain ⟨k, v⟩ := kv
        rw [finalizeEntries]
        have hx : finalizeAux 0 m v = (m, v) := by rw [finalizeAux]
        rw [hx]
        exact ih m
  | succ fuel ih =>
    have haux : ∀ (m : Machine) (v : JSValue),
        (finalizeAux (fuel+1) m v).1.states = m.states ∧
        (finalizeAux (fuel+1) m v).1.registry = m.registry := by
      intro m v
      cases v with
      | undef =>
        rw [finalizeAux]
        · exact ⟨rfl, rfl⟩
        · intro a h
          exact JSValue.noConfusion h
      | prim n =>
        rw [finalizeAux]
        · exact ⟨rfl, rfl⟩
        · intro a h
          exact JSValue.noConfusion h
      | ref a =>
        rw [finalizeAux]
        split
        · split
          · split
            · split
              · rename_i st hmod c hc
                exact ih.2 m c.entries
              · exact ⟨rfl, rfl⟩
            · exact ⟨rfl, rfl⟩
          · exact ⟨rfl, rfl⟩
        · rename_i c hc
          exact ih.2 m c.entries
        · exact ⟨rfl, rfl⟩
    refine ⟨haux, ?_⟩
    intro m es
    induction es generalizing m with
    | nil =>
      rw [finalizeEntries]
      exact ⟨rfl, rfl⟩
    | cons kv rest ihes =>
      obtain ⟨k, v⟩ := kv
      rw [finalizeEntries]
      obtain ⟨h1, h2⟩ := haux m v
      obtain ⟨h3, h4⟩ := ihes (finalizeAux (fuel+1) m v).1
      exact ⟨h3.trans h1, h4.trans h2⟩

end Immer

namespace Immer

theorem lowValue_ref (h : List HeapObj) (b : Addr) (hv : lowValue h (.ref b) = true) :
    ∃ c, h.get? b = some (.container c) := by
  rw [lowValue] at hv
  cases hg : h.get? b with
  | none => rw [hg] at hv; exact Bool.noConfusion hv
  | some o =>
    cases o with
    | container c => exact ⟨c, rfl⟩
    | proxyObj s r => rw [hg] at hv; exact Bool.noConfusion hv

theorem initHeap_entries (h : List HeapObj) (hinit : initHeap h = true) (b : Addr)
    (c : Container) (hbc : h.get? b = some (.container c)) :
    ∀ kv, kv ∈ c.entries → lowValue h kv.2 = true := by
  have hmem : HeapObj.container c ∈ h := List.get?_mem hbc
  have hpred := List.all_eq_true.mp hinit _ hmem
  have hent : c.entries.all (fun kv => lowValue h kv.2) = true := hpred
  exact fun kv hkv => List.all_eq_true.mp hent kv hkv

theorem finalize_low_id (h : List HeapObj) (hinit : initHeap h = true) : ∀ fuel : Nat,
    (∀ (m : Machine) (v : JSValue), LowInvP h m → lowValue h v = true →
      finalizeAux fuel m v = (m, v)) ∧
    (∀ (m : Machine) (es : List (Key × JSValue)), LowInvP h m →
      (∀ kv, kv ∈ es → lowValue h kv.2 = true) →
      finalizeEntries fuel m es = (m, es)) := by
  intro fuel
  induction fuel with
  | zero =>
    constructor
    · intro m v _ _
      rw [finalizeAux]
    · intro m es hlow hes
      induction es with
      | nil => rw [finalizeEntries]
      | cons kv rest ihes =>
        obtain ⟨k, v⟩ := kv
        rw [finalizeEntries]
        have hx : finalizeAux 0 m v = (m, v) := by rw [finalizeAux]
        rw [hx]
        show ((finalizeEntries 0 m rest).1, (k, v) :: (finalizeEntries 0 m rest).2) =
          (m, (k, v) :: rest)
        rw [ihes (fun kv hkv => hes kv (List.mem_cons_of_mem _ hkv))]
  | succ fuel ih =>
    have haux : ∀ (m : Machine) (v : JSValue), LowInvP h m → lowValue h v = true →
        finalizeAux (fuel+1) m v = (m, v) := by
      intro m v hlow hv
      cases v with
      | undef =>
        rw [finalizeAux]
        intro a hh
        exact JSValue.noConfusion hh
      | prim n =>
        rw [finalizeAux]
        intro a hh
        exact JSValue.noConfusion hh
      | ref b =>
        obtain ⟨c, hbc⟩ := lowValue_ref h b hv
        have hblt : b < h.length := get?_lt_length h b _ hbc
        have hmb : m.heap.get? b = some (.container c) := by
          rw [hlow.1 b hblt]
          exact hbc
        rw [finalizeAux]
        simp only [hmb]
        have hE : finalizeEntries fuel m c.entries = (m, c.entries) :=
          ih.2 m c.entries hlow (initHeap_entries h hinit b c hbc)
        rw [hE]
        show ({ m with heap := m.heap.set b (.container ⟨c.kind, c.entries⟩) },
          JSValue.ref b) = (m, .ref b)
        rw [list_set_same m.heap b (.container ⟨c.kind, c.entries⟩) (by exact hmb)]
    refine ⟨haux, ?_⟩
    intro m es hlow hes
    induction es with
    | nil => rw [finalizeEntries]
    | cons kv rest ihes =>
      obtain ⟨k, v⟩ := kv
      rw [finalizeEntries]
      rw [haux m v hlow (hes _ (List.mem_cons_self _ _))]
      show ((finalizeEntries (fuel+1) m rest).1, (k, v) :: (finalizeEntries (fuel+1) m rest).2) =
        (m, (k, v) :: rest)
      rw [ihes (fun kv hkv => hes kv (List.mem_cons_of_mem _ hkv))]

end Immer

namespace Immer

theorem get?_of_lt {α : Type} (l : List α) (i : Nat) (h : i < l.length) :
    ∃ x, l.get? i = some x := by
  cases hh : l.get? i with
  | none => exact absurd (List.get?_eq_none.mp hh) (Nat.not_le_of_lt h)
  | some x => exact ⟨x, rfl⟩

theorem initHeap_low_ref (h : List HeapObj) (hinit : initHeap h = true) (a : Addr)
    (hla : a < h.length) : lowValue h (.ref a) = true := by
  obtain ⟨o, ho⟩ := get?_of_lt h a hla
  have hpred := List.all_eq_true.mp hinit _ (List.get?_mem ho)
  cases o with
  | container c => rw [lowValue, ho]
  | proxyObj s r => exact Bool.noConfusion hpred

theorem finalize_frame (h : List HeapObj) (hinit : initHeap h = true) : ∀ fuel : Nat,
    (∀ (m : Machine) (v : JSValue), LowInvP h m →
      LowInvP h (finalizeAux fuel m v).1 ∧
      m.heap.length ≤ (finalizeAux fuel m v).1.heap.length ∧
      (∀ a sid b, (finalizeAux fuel m v).1.heap.get? a = some (.proxyObj sid b) ↔
        m.heap.get? a = some (.proxyObj sid b))) ∧
    (∀ (m : Machine) (es : List (Key × JSValue)), LowInvP h m →
      LowInvP h (finalizeEntries fuel m es).1 ∧
      m.heap.length ≤ (finalizeEntries fuel m es).1.heap.length ∧
      (∀ a sid b, (finalizeEntries fuel m es).1.heap.get? a = some (.proxyObj sid b) ↔
        m.heap.get? a = some (.proxyObj sid b))) := by
  intro fuel
  induction fuel with
  | zero =>
    constructor
    · intro m v hlow
      rw [finalizeAux]
      exact ⟨hlow, Nat.le_refl _, fun _ _ _ => Iff.rfl⟩
    · intro m es hlow
      induction es generalizing m with
      | nil =>
        rw [finalizeEntries]
        exact ⟨hlow, Nat.le_refl _, fun _ _ _ => Iff.rfl⟩
      | cons kv rest ihes =>
        obtain ⟨k, v⟩ := kv
        rw [finalizeEntries]
        have hx : finalizeAux 0 m v = (m, v) := by rw [finalizeAux]
        rw [hx]
        exact ihes m hlow
  | succ fuel ih =>
    have haux : ∀ (m : Machine) (v : JSValue), LowInvP h m →
        LowInvP h (finalizeAux (fuel+1) m v).1 ∧
        m.heap.length ≤ (finalizeAux (fuel+1) m v).1.heap.length ∧
        (∀ a sid b, (finalizeAux (fuel+1) m v).1.heap.get? a = some (.proxyObj sid b) ↔
          m.heap.get? a = some (.proxyObj sid b)) := by
      intro m v hlow
      cases v with
      | undef =>
        rw [finalizeAux]
        · exact ⟨hlow, Nat.le_refl _, fun _ _ _ => Iff.rfl⟩
        · intro a hh
          exact JSValue.noConfusion hh
      | prim n =>
        rw [finalizeAux]
        · exact ⟨hlow, Nat.le_refl _, fun _ _ _ => Iff.rfl⟩
        · intro a hh
          exact JSValue.noConfusion hh
      | ref a =>
        by_cases hla : a < h.length
        · rw [(finalize_low_id h hinit (fuel+1)).1 m (.ref a) hlow
            (initHeap_low_ref h hinit a hla)]
          exact ⟨hlow, Nat.le_refl _, fun _ _ _ => Iff.rfl⟩
        · rw [finalizeAux]
          split
          · -- proxy object branch
            split
            · -- state found
              split
              · -- modified: new container appended after finalizing the copy entries
                split
                · rename_i st hmod c hc
                  obtain ⟨hlowE, hlenE, hproxE⟩ := ih.2 m c.entries hlow
                  refine ⟨⟨?_, ?_⟩, ?_, ?_⟩
                  · intro x hx
                    show ((finalizeEntries fuel m c.entries).1.heap ++ _).get? x = h.get? x
                    rw [List.get?_append (Nat.lt_of_lt_of_le hx hlowE.2)]
                    exact hlowE.1 x hx
                  · show h.length ≤ ((finalizeEntries fuel m c.entries).1.heap ++ _).length
                    rw [List.length_append]
                    exact Nat.le_succ_of_le hlowE.2
                  · show m.heap.length ≤ ((finalizeEntries fuel m c.entries).1.heap ++ _).length
                    rw [List.length_append]
                    exact Nat.le_succ_of_le hlenE
                  · intro x sid₁ b₁
                    show ((finalizeEntries fuel m c.entries).1.heap ++ _).get? x =
                      some (HeapObj.proxyObj sid₁ b₁) ↔ _
                    constructor
                    · intro hx
                      by_cases hxl : x < (finalizeEntries fuel m c.entries).1.heap.length
                      · rw [List.get?_append hxl] at hx
                        exact (hproxE x sid₁ b₁).mp hx
                      · rw [List.get?_append_right (Nat.le_of_not_lt hxl)] at hx
                        cases hx2 : x - (finalizeEntries fuel m c.entries).1.heap.length with
                        | zero =>
                          rw [hx2] at hx
                          exact HeapObj.noConfusion (Option.some.inj hx)
                        | succ nn =>
                          rw [hx2] at hx
                          rw [List.get?_cons_succ] at hx
                          simp at hx
                    · intro hx
                      have hxl : x < m.heap.length := get?_lt_length _ _ _ hx
                      rw [List.get?_append (Nat.lt_of_lt_of_le hxl hlenE)]
                      exact (hproxE x sid₁ b₁).mpr hx
                · exact ⟨hlow, Nat.le_refl _, fun _ _ _ => Iff.rfl⟩
              · exact ⟨hlow, Nat.le_refl _, fun _ _ _ => Iff.rfl⟩
            · exact ⟨hlow, Nat.le_refl _, fun _ _ _ => Iff.rfl⟩
          · -- plain container branch: rewrite in place at the (high) address
            rename_i c hc
            obtain ⟨hlowE, hlenE, hproxE⟩ := ih.2 m c.entries hlow
            have haE : h.length ≤ a := Nat.le_of_not_lt hla
            refine ⟨⟨?_, ?_⟩, ?_, ?_⟩
            · intro x hx
              show ((finalizeEntries fuel m c.entries).1.heap.set a _).get? x = h.get? x
              rw [List.get?_set_ne _ _
                (fun hc2 => Nat.not_lt_of_le (by rw [← hc2]; exact haE) hx)]
              exact hlowE.1 x hx
            · show h.length ≤ ((finalizeEntries fuel m c.entries).1.heap.set a _).length
              rw [List.length_set]
              exact hlowE.2
            · show m.heap.length ≤ ((finalizeEntries fuel m c.entries).1.heap.set a _).length
              rw [List.length_set]
              exact hlenE
            · intro x sid₁ b₁
              show ((finalizeEntries fuel m c.entries).1.heap.set a _).get? x =
                some (HeapObj.proxyObj sid₁ b₁) ↔ _
              by_cases hxa : x = a
              · subst hxa
                constructor
                · intro hx
                  by_cases hxl : x < (finalizeEntries fuel m c.entries).1.heap.length
                  · rw [List.get?_set_eq_of_lt _ hxl] at hx
                    exact HeapObj.noConfusion (Option.some.inj hx)
                  · rw [List.get?_len_le (by rw [List.length_set]; exact Nat.le_of_not_lt hxl)] at hx
                    exact Option.noConfusion hx
                · intro hx
                  rw [hc] at hx
                  exact HeapObj.noConfusion (Option.some.inj hx)
              · rw [List.get?_set_ne _ _ (fun hc2 => hxa hc2.symm)]
                exact hproxE x sid₁ b₁
          · exact ⟨hlow, Nat.le_refl _, fun _ _ _ => Iff.rfl⟩
    refine ⟨haux, ?_⟩
    intro m es hlow
    induction es generalizing m with
    | nil =>
      rw [finalizeEntries]
      exact ⟨hlow, Nat.le_refl _, fun _ _ _ => Iff.rfl⟩
    | cons kv rest ihes =>
      obtain ⟨k, v⟩ := kv
      rw [finalizeEntries]
      obtain ⟨hlow₁, hlen₁, hprox₁⟩ := haux m v hlow
      obtain ⟨hlow₂, hlen₂, hprox₂⟩ := ihes (finalizeAux (fuel+1) m v).1 hlow₁
      exact ⟨hlow₂, Nat.le_trans hlen₁ hlen₂,
        fun a sid b => Iff.trans (hprox₂ a sid b) (hprox₁ a sid b)⟩

end Immer

namespace Immer

theorem revokeOne_states (m : Machine) (a : Addr) : (revokeOne m a).states = m.states := by
  rw [revokeOne]
  split <;> rfl

theorem revokeOne_registry (m : Machine) (a : Addr) :
    (revokeOne m a).registry = m.registry := by
  rw [revokeOne]
  split <;> rfl

theorem revokeOne_heap_length (m : Machine) (a : Addr) :
    (revokeOne m a).heap.length = m.heap.length := by
  rw [revokeOne]
  split
  · show (List.set _ _ _).length = _
    rw [List.length_set]
  · rfl

theorem foldl_revoke_states (l : List Addr) : ∀ m : Machine,
    (l.foldl revokeOne m).states = m.states := by
  induction l with
  | nil => intro m; rfl
  | cons x l ih =>
    intro m
    rw [List.foldl_cons, ih, revokeOne_states]

theorem foldl_revoke_spec (l : List Addr) : ∀ m : Machine,
    (∀ a sid, m.heap.get? a = some (.proxyObj sid false) → a ∈ l) →
    ∀ a sid b, (l.foldl revokeOne m).heap.get? a = some (.proxyObj sid b) → b = true := by
  induction l with
  | nil =>
    intro m hc a sid b hx
    cases b with
    | false => exact absurd (hc a sid hx) (List.not_mem_nil a)
    | true => rfl
  | cons x l ih =>
    intro m hc a sid b hx
    rw [List.foldl_cons] at hx
    refine ih (revokeOne m x) ?_ a sid b hx
    intro a' sid' ha'
    by_cases hax : a' = x
    · subst hax
      rw [revokeOne] at ha'
      split at ha'
      · rename_i s r hsx
        rw [List.get?_set_eq_of_lt _ (get?_lt_length _ _ _ hsx)] at ha'
        simp at ha'
      · rename_i hnp
        exact absurd ha' (hnp sid' false)
    · have hm : m.heap.get? a' = some (.proxyObj sid' false) := by
        rw [revokeOne] at ha'
        split at ha'
        · rwa [List.get?_set_ne _ _ (fun hc2 => hax hc2.symm)] at ha'
        · exact ha'
      rcases List.mem_cons.mp (hc a' sid' hm) with h1 | h1
      · exact absurd h1 hax
      · exact h1

end Immer

namespace Immer

theorem finalize_proxy_cells : ∀ fuel : Nat,
    (∀ (m : Machine) (v : JSValue),
      m.heap.length ≤ (finalizeAux fuel m v).1.heap.length ∧
      (∀ a sid b, (finalizeAux fuel m v).1.heap.get? a = some (.proxyObj sid b) ↔
        m.heap.get? a = some (.proxyObj sid b))) ∧
    (∀ (m : Machine) (es : List (Key × JSValue)),
      m.heap.length ≤ (finalizeEntries fuel m es).1.heap.length ∧
      (∀ a sid b, (finalizeEntries fuel m es).1.heap.get? a = some (.proxyObj sid b) ↔
        m.heap.get? a = some (.proxyObj sid b))) := by
  intro fuel
  induction fuel with
  | zero =>
    constructor
    · intro m v
      rw [finalizeAux]
      exact ⟨Nat.le_refl _, fun _ _ _ => Iff.rfl⟩
    · intro m es
      induction es generalizing m with
      | nil =>
        rw [finalizeEntries]
        exact ⟨Nat.le_refl _, fun _ _ _ => Iff.rfl⟩
      | cons kv rest ihes =>
        obtain ⟨k, v⟩ := kv
        rw [finalizeEntries]
        have hx : finalizeAux 0 m v = (m, v) := by rw [finalizeAux]
        rw [hx]
        exact ihes m
  | succ fuel ih =>
    have haux : ∀ (m : Machine) (v : JSValue),
        m.heap.length ≤ (finalizeAux (fuel+1) m v).1.heap.length ∧
        (∀ a sid b, (finalizeAux (fuel+1) m v).1.heap.get? a = some (.proxyObj sid b) ↔
          m.heap.get? a = some (.proxyObj sid b)) := by
      intro m v
      cases v with
      | undef =>
        rw [finalizeAux]
        · exact ⟨Nat.le_refl _, fun _ _ _ => Iff.rfl⟩
        · intro a hh
          exact JSValue.noConfusion hh
      | prim n =>
        rw [finalizeAux]
        · exact ⟨Nat.le_refl _, fun _ _ _ => Iff.rfl⟩
        · intro a hh
          exact JSValue.noConfusion hh
      | ref a =>
        rw [finalizeAux]
        split
        · split
          · split
            · split
              · rename_i st hmod c hc
                obtain ⟨hlenE, hproxE⟩ := ih.2 m c.entries
                refine ⟨?_, ?_⟩
                · show m.heap.length ≤ ((finalizeEntries fuel m c.entries).1.heap ++ _).length
                  rw [List.length_append]
                  exact Nat.le_succ_of_le hlenE
                · intro x sid₁ b₁
                  show ((finalizeEntries fuel m c.entries).1.heap ++ _).get? x =
                    some (HeapObj.proxyObj sid₁ b₁) ↔ _
                  constructor
                  · intro hx
                    by_cases hxl : x < (finalizeEntries fuel m c.entries).1.heap.length
                    · rw [List.get?_append hxl] at hx
                      exact (hproxE x sid₁ b₁).mp hx
                    · rw [List.get?_append_right (Nat.le_of_not_lt hxl)] at hx
                      cases hx2 : x - (finalizeEntries fuel m c.entries).1.heap.length with
                      | zero =>
                        rw [hx2] at hx
                        exact HeapObj.noConfusion (Option.some.inj hx)
                      | succ nn =>
                        rw [hx2] at hx
                        rw [List.get?_cons_succ] at hx
                        simp at hx
                  · intro hx
                    have hxl : x < m.heap.length := get?_lt_length _ _ _ hx
                    rw [List.get?_append (Nat.lt_of_lt_of_le hxl hlenE)]
                    exact (hproxE x sid₁ b₁).mpr hx
              · exact ⟨Nat.le_refl _, fun _ _ _ => Iff.rfl⟩
            · exact ⟨Nat.le_refl _, fun _ _ _ => Iff.rfl⟩
          · exact ⟨Nat.le_refl _, fun _ _ _ => Iff.rfl⟩
        · rename_i c hc
          obtain ⟨hlenE, hproxE⟩ := ih.2 m c.entries
          refine ⟨?_, ?_⟩
          · show m.heap.length ≤ ((finalizeEntries fuel m c.entries).1.heap.set a _).length
            rw [List.length_set]
            exact hlenE
          · intro x sid₁ b₁
            show ((finalizeEntries fuel m c.entries).1.heap.set a _).get? x =
              some (HeapObj.proxyObj sid₁ b₁) ↔ _
            by_cases hxa : x = a
            · subst hxa
              constructor
              · intro hx
                by_cases hxl : x < (finalizeEntries fuel m c.entries).1.heap.length
                · rw [List.get?_set_eq_of_lt _ hxl] at hx
                  exact HeapObj.noConfusion (Option.some.inj hx)
                · rw [List.get?_len_le
                    (by rw [List.length_set]; exact Nat.le_of_not_lt hxl)] at hx
                  exact Option.noConfusion hx
              · intro hx
                rw [hc] at hx
                exact HeapObj.noConfusion (Option.some.inj hx)
            · rw [List.get?_set_ne _ _ (fun hc2 => hxa hc2.symm)]
              exact hproxE x sid₁ b₁
        · exact ⟨Nat.le_refl _, fun _ _ _ => Iff.rfl⟩
    refine ⟨haux, ?_⟩
    intro m es
    induction es generalizing m with
    | nil =>
      rw [finalizeEntries]
      exact ⟨Nat.le_refl _, fun _ _ _ => Iff.rfl⟩
    | cons kv rest ihes =>
      obtain ⟨k, v⟩ := kv
      rw [finalizeEntries]
      obtain ⟨hlen₁, hprox₁⟩ := haux m v
      obtain ⟨hlen₂, hprox₂⟩ := ihes (finalizeAux (fuel+1) m v).1
      exact ⟨Nat.le_trans hlen₁ hlen₂,
        fun a sid b => Iff.trans (hprox₂ a sid b) (hprox₁ a sid b)⟩

end Immer

namespace Immer

theorem writeAddr_proxy_cells (m : Machine) (a : Addr) (k : Key) (v : JSValue) :
    ∀ x sid b, (m.writeAddr a k v).heap.get? x = some (.proxyObj sid b) ↔
      m.heap.get? x = some (.proxyObj sid b) := by
  intro x sid b
  rw [Machine.writeAddr]
  split
  · rename_i c hc
    show (m.heap.set a _).get? x = _ ↔ _
    by_cases hxa : x = a
    · subst hxa
      rw [List.get?_set_eq_of_lt _ (get?_lt_length _ _ _ hc), hc]
      constructor
      · intro hx
        exact HeapObj.noConfusion (Option.some.inj hx)
      · intro hx
        exact HeapObj.noConfusion (Option.some.inj hx)
    · rw [List.get?_set_ne _ _ (fun hc2 => hxa hc2.symm)]
  · exact Iff.rfl

theorem deleteAddr_proxy_cells (m : Machine) (a : Addr) (k : Key) :
    ∀ x sid b, (m.deleteAddr a k).heap.get? x = some (.proxyObj sid b) ↔
      m.heap.get? x = some (.proxyObj sid b) := by
  intro x sid b
  rw [Machine.deleteAddr]
  split
  · rename_i c hc
    show (m.heap.set a _).get? x = _ ↔ _
    by_cases hxa : x = a
    · subst hxa
      rw [List.get?_set_eq_of_lt _ (get?_lt_length _ _ _ hc), hc]
      constructor
      · intro hx
        exact HeapObj.noConfusion (Option.some.inj hx)
      · intro hx
        exact HeapObj.noConfusion (Option.some.inj hx)
    · rw [List.get?_set_ne _ _ (fun hc2 => hxa hc2.symm)]
  · exact Iff.rfl

theorem proxReg_of_cells_registry (m m' : Machine)
    (hcell : ∀ x sid b, m'.heap.get? x = some (.proxyObj sid b) ↔
      m.heap.get? x = some (.proxyObj sid b))
    (hreg : m'.registry = m.registry) (hpr : ProxReg m) : ProxReg m' := by
  intro a sid b hx
  rw [hreg]
  exact hpr a sid b ((hcell a sid b).mp hx)

theorem markChanged_proxReg (m : Machine) (sid : StateId) (hpr : ProxReg m) :
    ProxReg (markChanged m sid) := by
  intro a s b hx
  rw [markChanged] at hx
  rw [markChanged, markChangedAux_registry]
  by_cases hal : a < m.heap.length
  · rw [markChangedAux_heap_pres _ _ _ _ hal] at hx
    exact hpr a s b hx
  · obtain ⟨c, hc⟩ := markChangedAux_heap_new (sid+1) m sid a (Nat.le_of_not_lt hal)
      (get?_lt_length _ _ _ hx)
    rw [hc] at hx
    exact HeapObj.noConfusion (Option.some.inj hx)

theorem createProxy_proxReg (m : Machine) (par : Option StateId) (bb : Addr)
    (hpr : ProxReg m) : ProxReg (createProxy m par bb).1 := by
  intro a s b hx
  show a ∈ m.registry ++ [m.heap.length]
  have hx' : (m.heap ++ [HeapObj.proxyObj m.states.length false]).get? a =
      some (.proxyObj s b) := hx
  by_cases hal : a < m.heap.length
  · rw [List.get?_append hal] at hx'
    exact List.mem_append_left _ (hpr a s b hx')
  · have hlen : a < m.heap.length + 1 := by
      have := get?_lt_length _ _ _ hx'
      rwa [List.length_append] at this
    have ha : a = m.heap.length := Nat.le_antisymm (Nat.lt_succ_iff.mp hlen)
      (Nat.le_of_not_lt hal)
    subst ha
    exact List.mem_append_right _ (List.mem_singleton_self _)

theorem get_proxReg (m : Machine) (sid : StateId) (k : Key) (hpr : ProxReg m) :
    ProxReg (get m sid k).1 := by
  rw [get]
  split
  · exact hpr
  · rename_i st hst
    split
    · split
      · split
        · rename_i b hvb
          exact proxReg_of_cells_registry _ _
            (writeAddr_proxy_cells _ _ k _)
            (writeAddr_registry _ _ k _)
            (createProxy_proxReg m (some sid) b hpr)
        · exact hpr
      · exact hpr
    · split
      · exact hpr
      · split
        · split
          · rename_i b hvb
            exact createProxy_proxReg m (some sid) b hpr
          · exact hpr
        · exact hpr

theorem set_proxReg (m : Machine) (sid : StateId) (k : Key) (v : JSValue)
    (hpr : ProxReg m) : ProxReg (Immer.set m sid k v).1 := by
  rw [Immer.set]
  split
  · exact hpr
  · rename_i st hst
    split
    · exact proxReg_of_cells_registry _ _ (writeAddr_proxy_cells _ _ k v)
        (writeAddr_registry _ _ k v) hpr
    · split
      · exact hpr
      · split
        · rename_i st₁ hst₁
          exact proxReg_of_cells_registry _ _ (writeAddr_proxy_cells _ _ k v)
            (writeAddr_registry _ _ k v) (markChanged_proxReg m sid hpr)
        · exact markChanged_proxReg m sid hpr

theorem deleteProperty_proxReg (m : Machine) (sid : StateId) (k : Key)
    (hpr : ProxReg m) : ProxReg (deleteProperty m sid k).1 := by
  rw [deleteProperty]
  split
  · rename_i st₁ hst₁
    exact proxReg_of_cells_registry _ _ (deleteAddr_proxy_cells _ _ k)
      (deleteAddr_registry _ _ k) (markChanged_proxReg m sid hpr)
  · exact markChanged_proxReg m sid hpr

theorem navigate_proxReg (path : List Key) (m : Machine) (v : JSValue)
    (hpr : ProxReg m) : ProxReg (navigate m v path).1 := by
  induction path generalizing m v with
  | nil => exact hpr
  | cons hd tl ih =>
    cases v with
    | undef => exact hpr
    | prim n => exact hpr
    | ref a =>
      rw [navigate]
      split
      · rename_i sid hh
        exact ih (get m sid hd).1 (get m sid hd).2 (get_proxReg m sid hd hpr)
      · exact hpr

theorem execCmd_proxReg (m : Machine) (root : Addr) (c : Cmd) (hpr : ProxReg m) :
    ProxReg (execCmd m root c).1 := by
  cases c with
  | readAt path k =>
    rw [execCmd]
    have h₁ : ProxReg (resolve m root path).1 := by
      rw [resolve_fst]
      exact navigate_proxReg path m (.ref root) hpr
    split
    · rename_i sid hsid
      exact get_proxReg _ sid k h₁
    · exact h₁
  | writeAt path k v =>
    rw [execCmd]
    have h₁ : ProxReg (resolve m root path).1 := by
      rw [resolve_fst]
      exact navigate_proxReg path m (.ref root) hpr
    split
    · rename_i sid hsid
      exact set_proxReg _ sid k v.toValue h₁
    · exact h₁
  | writeDraftAt path k dpath =>
    rw [execCmd]
    have h₁ : ProxReg (resolve m root path).1 := by
      rw [resolve_fst]
      exact navigate_proxReg path m (.ref root) hpr
    split
    · rename_i sid hsid
      exact set_proxReg _ sid k _ (navigate_proxReg dpath _ (.ref root) h₁)
    · exact h₁
  | deleteAt path k =>
    rw [execCmd]
    have h₁ : ProxReg (resolve m root path).1 := by
      rw [resolve_fst]
      exact navigate_proxReg path m (.ref root) hpr
    split
    · rename_i sid hsid
      exact deleteProperty_proxReg _ sid k h₁
    · exact h₁
  | throwErr => exact hpr

theorem execProg_proxReg (prog : List Cmd) (m : Machine) (root : Addr)
    (hpr : ProxReg m) : ProxReg (execProg m root prog).1 := by
  induction prog generalizing m with
  | nil => exact hpr
  | cons c rest ih =>
    rw [execProg]
    have h₁ := execCmd_proxReg m root c hpr
    split
    · rename_i m₁ hc
      rw [show (execCmd m root c).1 = m₁ from congrArg Prod.fst hc] at h₁
      exact ih m₁ h₁
    · rename_i m₁ e hc
      rw [show (execCmd m root c).1 = m₁ from congrArg Prod.fst hc] at h₁
      exact h₁

theorem evalRet_proxReg (m : Machine) (root : Addr) (ret : RetSpec)
    (hpr : ProxReg m) : ProxReg (evalRet m root ret).1 := by
  cases ret with
  | retUndef => exact hpr
  | retRoot => exact hpr
  | retPrim n => exact hpr
  | retPath p => exact navigate_proxReg p m (.ref root) hpr

theorem finalize_proxReg (fuel : Nat) (m : Machine) (v : JSValue) (hpr : ProxReg m) :
    ProxReg (finalizeAux fuel m v).1 := by
  intro a sid b hx
  rw [((finalize_states_registry fuel).1 m v).2]
  exact hpr a sid b (((finalize_proxy_cells fuel).1 m v).2 a sid b |>.mp hx)

end Immer

namespace Immer

theorem allProxiesRevoked_of (m : Machine)
    (h : ∀ a sid b, m.heap.get? a = some (.proxyObj sid b) → b = true) :
    allProxiesRevoked m = true := by
  rw [allProxiesRevoked]
  apply List.all_eq_true.mpr
  intro o ho
  obtain ⟨i, hi⟩ := List.mem_iff_get?.mp ho
  cases o with
  | container c => rfl
  | proxyObj s b => exact h i s b hi

theorem produceCore_cases (m : Machine) (rootA : Addr) (prog : List Cmd)
    (ret : RetSpec) :
    (∃ e, produceCore m rootA prog ret = (.error e, (execProg m rootA prog).1)) ∨
    (produceCore m rootA prog ret =
      (.error .returnedAndModified, (evalRet (execProg m rootA prog).1 rootA ret).1)) ∨
    (∃ w, produceCore m rootA prog ret =
      (.ok (finalizeAux ((evalRet (execProg m rootA prog).1 rootA ret).1.heap.length + 1)
          (evalRet (execProg m rootA prog).1 rootA ret).1 w).2,
        revokeAll (finalizeAux ((evalRet (execProg m rootA prog).1 rootA ret).1.heap.length + 1)
          (evalRet (execProg m rootA prog).1 rootA ret).1 w).1)) := by
  rw [produceCore]
  split
  · rename_i e hE
    exact Or.inl ⟨e, rfl⟩
  · split
    · split
      · exact Or.inr (Or.inl rfl)
      · exact Or.inr (Or.inr ⟨_, rfl⟩)
    · exact Or.inr (Or.inr ⟨_, rfl⟩)

theorem produceCore_revokes (m : Machine) (rootA : Addr) (prog : List Cmd)
    (ret : RetSpec) (hpr : ProxReg m)
    (hok : ∃ r, (produceCore m rootA prog ret).1 = .ok r) :
    ∀ a sid b, (produceCore m rootA prog ret).2.heap.get? a = some (.proxyObj sid b) →
      b = true := by
  obtain ⟨r, hokr⟩ := hok
  rcases produceCore_cases m rootA prog ret with ⟨e, hc⟩ | hc | ⟨w, hc⟩
  · rw [hc] at hokr
    exact Except.noConfusion hokr
  · rw [hc] at hokr
    exact Except.noConfusion hokr
  · rw [hc]
    have hpr2 := execProg_proxReg prog m rootA hpr
    have hpr3 := evalRet_proxReg (execProg m rootA prog).1 rootA ret hpr2
    have hpr4 := finalize_proxReg
      ((evalRet (execProg m rootA prog).1 rootA ret).1.heap.length + 1)
      (evalRet (execProg m rootA prog).1 rootA ret).1 w hpr3
    exact foldl_revoke_spec _ _ (fun a sid hx => hpr4 a sid false hx)

/-- C1 as amended: when produce completes normally and returns a result,
every proxy object in the final heap — in particular every draft
accessor created during the call — has been revoked; the error paths
(the mutation function raising, or ReturnedAndModified) restore the
registry but skip the revocation loop, as the counterexample shows. -/
theorem revoke_all_on_success (m₀ : Machine) (baseA : Addr) (prog : List Cmd)
    (ret : RetSpec) (hinit : initHeap m₀.heap = true)
    (hok : ∃ r, (produceProxy m₀ baseA prog ret).1 = .ok r) :
    allProxiesRevoked (produceProxy m₀ baseA prog ret).2 = true := by
  have hpr0 : ProxReg { m₀ with registry := ([] : List Addr) } := by
    intro a sid b hx
    have hpred := List.all_eq_true.mp hinit _ (List.get?_mem hx)
    exact Bool.noConfusion hpred
  have hpr1 := createProxy_proxReg { m₀ with registry := ([] : List Addr) } none baseA hpr0
  have hrev := produceCore_revokes
    (createProxy { m₀ with registry := ([] : List Addr) } none baseA).1
    (createProxy { m₀ with registry := ([] : List Addr) } none baseA).2 prog ret hpr1 hok
  apply allProxiesRevoked_of
  intro a sid b hx
  exact hrev a sid b hx

/-- Witness for the amended C1: a successful produce call over the
example machine (a write, returning nothing) leaves every proxy object
revoked. -/
theorem revoke_all_on_success_witness :
    allProxiesRevoked (produceProxy exMachine 1 [.writeAt [] 1 (.prim 9)] .retUndef).2 =
      true :=
  revoke_all_on_success exMachine 1 [.writeAt [] 1 (.prim 9)] .retUndef (by decide)
    ⟨_, by
      show (produceCore (createProxy { exMachine with registry := ([] : List Addr) } none 1).1
        (createProxy { exMachine with registry := ([] : List Addr) } none 1).2
        [.writeAt [] 1 (.prim 9)] .retUndef).1 = _
      rw [produceCore]
      rw [show (execProg (createProxy { exMachine with registry := ([] : List Addr) } none 1).1
        (createProxy { exMachine with registry := ([] : List Addr) } none 1).2
        [.writeAt [] 1 (.prim 9)]).2 = none from by decide]
      rw [if_neg (fun h => h.1 rfl)]⟩

end Immer

namespace Immer

theorem inv_writeAddr (h : List HeapObj) (m : Machine) (inv : Inv h m) (ca : Addr)
    (hca : h.length ≤ ca) (k : Key) (v : JSValue) : Inv h (m.writeAddr ca k v) := by
  rw [Machine.writeAddr]
  split
  · rename_i c hc
    refine ⟨?_, ?_, ?_, ?_, ?_, ?_⟩
    · intro a ha
      show (m.heap.set ca _).get? a = h.get? a
      rw [List.get?_set_ne _ _ (fun h2 => Nat.not_lt_of_le (by rw [← h2]; exact hca) ha)]
      exact inv.lowPres a ha
    · show h.length ≤ (m.heap.set ca _).length
      rw [List.length_set]
      exact inv.heapExt
    · exact inv.parentsLt
    · exact inv.baseLow
    · exact inv.copyMod
    · intro sid st ca' hst hc'
      obtain ⟨h1, c', h2⟩ := inv.copyHigh sid st ca' hst hc'
      refine ⟨h1, ?_⟩
      show ∃ x, (m.heap.set ca _).get? ca' = some (.container x)
      by_cases hcc : ca' = ca
      · subst hcc
        rw [List.get?_set_eq_of_lt _ (get?_lt_length _ _ _ hc)]
        exact ⟨_, rfl⟩
      · rw [List.get?_set_ne _ _ (fun h2 => hcc h2.symm)]
        exact ⟨c', h2⟩
  · exact inv

theorem inv_deleteAddr (h : List HeapObj) (m : Machine) (inv : Inv h m) (ca : Addr)
    (hca : h.length ≤ ca) (k : Key) : Inv h (m.deleteAddr ca k) := by
  rw [Machine.deleteAddr]
  split
  · rename_i c hc
    refine ⟨?_, ?_, ?_, ?_, ?_, ?_⟩
    · intro a ha
      show (m.heap.set ca _).get? a = h.get? a
      rw [List.get?_set_ne _ _ (fun h2 => Nat.not_lt_of_le (by rw [← h2]; exact hca) ha)]
      exact inv.lowPres a ha
    · show h.length ≤ (m.heap.set ca _).length
      rw [List.length_set]
      exact inv.heapExt
    · exact inv.parentsLt
    · exact inv.baseLow
    · exact inv.copyMod
    · intro sid st ca' hst hc'
      obtain ⟨h1, c', h2⟩ := inv.copyHigh sid st ca' hst hc'
      refine ⟨h1, ?_⟩
      show ∃ x, (m.heap.set ca _).get? ca' = some (.container x)
      by_cases hcc : ca' = ca
      · subst hcc
        rw [List.get?_set_eq_of_lt _ (get?_lt_length _ _ _ hc)]
        exact ⟨_, rfl⟩
      · rw [List.get?_set_ne _ _ (fun h2 => hcc h2.symm)]
        exact ⟨c', h2⟩
  · exact inv

theorem inv_markChanged (h : List HeapObj) (m : Machine) (sid : StateId)
    (inv : Inv h m) : Inv h (markChanged m sid) := by
  refine ⟨?_, ?_, markChanged_parentsLt m sid inv.parentsLt, ?_, ?_, ?_⟩
  · intro a ha
    rw [markChanged, markChangedAux_heap_pres _ _ _ _ (Nat.lt_of_lt_of_le ha inv.heapExt)]
    exact inv.lowPres a ha
  · rw [markChanged]
    exact Nat.le_trans inv.heapExt (markChangedAux_heap_mono _ _ _)
  · intro j st' hst'
    have hj : j < m.states.length := by
      have := state?_lt _ j st' hst'
      rwa [markChanged, markChangedAux_states_length] at this
    obtain ⟨st, hst⟩ := state?_of_lt m j hj
    obtain ⟨st'', hst'', _, hbase, _, _, _, _⟩ :=
      markChangedAux_state_evolution (sid+1) m sid j st hst
    rw [markChanged] at hst'
    rw [hst''] at hst'
    rw [← Option.some.inj hst', hbase]
    exact inv.baseLow j st hst
  · intro j st' hst' hmod'
    have hj : j < m.states.length := by
      have := state?_lt _ j st' hst'
      rwa [markChanged, markChangedAux_states_length] at this
    obtain ⟨st, hst⟩ := state?_of_lt m j hj
    obtain ⟨st'', hst'', _, _, _, _, _, hdisj⟩ :=
      markChangedAux_state_evolution (sid+1) m sid j st hst
    rw [markChanged] at hst'
    rw [hst''] at hst'
    have hse : st'' = st' := Option.some.inj hst'
    subst hse
    rcases hdisj with heq | ⟨_, _, ca, hca, _, _⟩
    · rw [heq] at hmod' ⊢
      exact inv.copyMod j st hst hmod'
    · rw [hca]
      exact Option.noConfusion
  · intro j st' ca hst' hca
    have hj : j < m.states.length := by
      have := state?_lt _ j st' hst'
      rwa [markChanged, markChangedAux_states_length] at this
    obtain ⟨st, hst⟩ := state?_of_lt m j hj
    obtain ⟨st'', hst'', _, _, _, _, _, hdisj⟩ :=
      markChangedAux_state_evolution (sid+1) m sid j st hst
    rw [markChanged] at hst' ⊢
    rw [hst''] at hst'
    have hse : st'' = st' := Option.some.inj hst'
    subst hse
    rcases hdisj with heq | ⟨_, _, ca₂, hca₂, hle₂, c₂, hc₂⟩
    · rw [heq] at hca
      obtain ⟨h1, c', h2⟩ := inv.copyHigh j st ca hst hca
      refine ⟨h1, c', ?_⟩
      rw [markChangedAux_heap_pres _ _ _ _ (get?_lt_length _ _ _ h2)]
      exact h2
    · rw [hca₂] at hca
      have : ca₂ = ca := Option.some.inj hca
      subst this
      exact ⟨Nat.le_trans inv.heapExt hle₂, c₂, hc₂⟩

theorem inv_createProxy (h : List HeapObj) (m : Machine) (par : Option StateId)
    (b : Addr) (inv : Inv h m)
    (hb : b < h.length ∧ ∃ c, h.get? b = some (.container c))
    (hpar : ∀ p, par = some p → p < m.states.length) :
    Inv h (createProxy m par b).1 := by
  refine ⟨?_, ?_, createProxy_parentsLt m par b inv.parentsLt hpar, ?_, ?_, ?_⟩
  · intro a ha
    show (m.heap ++ _).get? a = h.get? a
    rw [List.get?_append (Nat.lt_of_lt_of_le ha inv.heapExt)]
    exact inv.lowPres a ha
  · show h.length ≤ (m.heap ++ _).length
    rw [List.length_append]
    exact Nat.le_succ_of_le inv.heapExt
  · intro j st hst
    by_cases hj : j < m.states.length
    · rw [createProxy_state_lt m par b j hj] at hst
      exact inv.baseLow j st hst
    · have hj2 : j < m.states.length + 1 := by
        have := state?_lt _ j st hst
        rwa [createProxy_states_length] at this
      have hj3 : j = m.states.length := Nat.le_antisymm (Nat.lt_succ_iff.mp hj2)
        (Nat.le_of_not_lt hj)
      subst hj3
      rw [createProxy_state_new] at hst
      rw [← Option.some.inj hst]
      exact hb
  · intro j st hst hmod
    by_cases hj : j < m.states.length
    · rw [createProxy_state_lt m par b j hj] at hst
      exact inv.copyMod j st hst hmod
    · have hj2 : j < m.states.length + 1 := by
        have := state?_lt _ j st hst
        rwa [createProxy_states_length] at this
      have hj3 : j = m.states.length := Nat.le_antisymm (Nat.lt_succ_iff.mp hj2)
        (Nat.le_of_not_lt hj)
      subst hj3
      rw [createProxy_state_new] at hst
      rw [← Option.some.inj hst] at hmod
      exact Bool.noConfusion hmod
  · intro j st ca hst hca
    by_cases hj : j < m.states.length
    · rw [createProxy_state_lt m par b j hj] at hst
      obtain ⟨h1, c', h2⟩ := inv.copyHigh j st ca hst hca
      refine ⟨h1, c', ?_⟩
      show (m.heap ++ _).get? ca = _
      rw [List.get?_append (get?_lt_length _ _ _ h2)]
      exact h2
    · have hj2 : j < m.states.length + 1 := by
        have := state?_lt _ j st hst
        rwa [createProxy_states_length] at this
      have hj3 : j = m.states.length := Nat.le_antisymm (Nat.lt_succ_iff.mp hj2)
        (Nat.le_of_not_lt hj)
      subst hj3
      rw [createProxy_state_new] at hst
      rw [← Option.some.inj hst] at hca
      exact Option.noConfusion hca

theorem inv_setProxies (h : List HeapObj) (m : Machine) (sid : StateId)
    (st : DraftState) (ps : List (Key × Addr)) (hst : m.state? sid = some st)
    (inv : Inv h m) : Inv h { m with states := m.states.set sid { st with proxies := ps } } := by
  obtain ⟨hself, hother⟩ := set_state_spec m sid st { st with proxies := ps } hst
  refine ⟨inv.lowPres, inv.heapExt, ?_, ?_, ?_, ?_⟩
  · intro j stj p hstj hp
    by_cases hj : j = sid
    · subst hj
      rw [hself] at hstj
      rw [← Option.some.inj hstj] at hp
      exact inv.parentsLt j st p hst hp
    · rw [hother j hj] at hstj
      exact inv.parentsLt j stj p hstj hp
  · intro j stj hstj
    by_cases hj : j = sid
    · subst hj
      rw [hself] at hstj
      rw [← Option.some.inj hstj]
      exact inv.baseLow j st hst
    · rw [hother j hj] at hstj
      exact inv.baseLow j stj hstj
  · intro j stj hstj hmod
    by_cases hj : j = sid
    · subst hj
      rw [hself] at hstj
      rw [← Option.some.inj hstj] at hmod ⊢
      exact inv.copyMod j st hst hmod
    · rw [hother j hj] at hstj
      exact inv.copyMod j stj hstj hmod
  · intro j stj ca hstj hca
    by_cases hj : j = sid
    · subst hj
      rw [hself] at hstj
      rw [← Option.some.inj hstj] at hca
      exact inv.copyHigh j st ca hst hca
    · rw [hother j hj] at hstj
      exact inv.copyHigh j stj ca hstj hca

theorem inv_base_read_low (h : List HeapObj) (hinit : initHeap h = true) (m : Machine)
    (inv : Inv h m) (sid : StateId) (st : DraftState) (k : Key) (b : Addr)
    (hst : m.state? sid = some st) (hread : m.readAddr st.base k = .ref b) :
    b < h.length ∧ ∃ c, h.get? b = some (.container c) := by
  obtain ⟨hblt, c, hbc⟩ := inv.baseLow sid st hst
  have hmb : m.heap.get? st.base = some (.container c) := by
    rw [inv.lowPres st.base hblt]
    exact hbc
  rw [Machine.readAddr, Machine.container?, hmb] at hread
  have hread' : (lookupEntry c.entries k).getD JSValue.undef = JSValue.ref b := hread
  have hlk : lookupEntry c.entries k = some (.ref b) := by
    cases hl : lookupEntry c.entries k with
    | none =>
      rw [hl] at hread'
      exact JSValue.noConfusion hread'
    | some v =>
      rw [hl] at hread'
      rw [← hread']
      rfl
  have hmem := lookupEntry_mem c.entries k _ hlk
  have hlv : lowValue h (.ref b) = true :=
    initHeap_entries h hinit st.base c hbc (k, .ref b) hmem
  obtain ⟨c', hc'⟩ := lowValue_ref h b hlv
  exact ⟨get?_lt_length _ _ _ hc', c', hc'⟩

end Immer

namespace Immer

theorem inv_copy_high (h : List HeapObj) (m : Machine) (inv : Inv h m)
    (sid : StateId) (st : DraftState) (hst : m.state? sid = some st)
    (hmod : st.modified = true) : h.length ≤ st.copy.getD st.base := by
  cases hcopy : st.copy with
  | none => exact absurd hcopy (inv.copyMod sid st hst hmod)
  | some ca =>
    exact (inv.copyHigh sid st ca hst hcopy).1

theorem inv_get (h : List HeapObj) (hinit : initHeap h = true) (m : Machine)
    (sid : StateId) (k : Key) (inv : Inv h m) : Inv h (get m sid k).1 := by
  rw [get]
  split
  · exact inv
  · rename_i st hst
    split
    · rename_i hmod
      split
      · rename_i hcond
        split
        · rename_i b hvb
          have hread : m.readAddr st.base k = .ref b := by
            rw [← hcond.1]
            exact hvb
          have hb := inv_base_read_low h hinit m inv sid st k b hst hread
          refine inv_writeAddr h _ ?_ _ ?_ k _
          · exact inv_createProxy h m (some sid) b inv hb
              (fun p hp => by rw [← Option.some.inj hp]; exact state?_lt m sid st hst)
          · exact inv_copy_high h m inv sid st hst hmod
        · exact inv
      · exact inv
    · rename_i hmod
      split
      · exact inv
      · split
        · rename_i hcond
          split
          · rename_i b hvb
            refine inv_setProxies h _ sid st _ ?_
              (inv_createProxy h m (some sid) b inv
                (inv_base_read_low h hinit m inv sid st k b hst hvb)
                (fun p hp => by rw [← Option.some.inj hp]; exact state?_lt m sid st hst))
            rw [createProxy_state_lt m (some sid) b sid (state?_lt m sid st hst)]
            exact hst
          · exact inv
        · exact inv

theorem inv_set (h : List HeapObj) (m : Machine) (sid : StateId) (k : Key)
    (v : JSValue) (inv : Inv h m) : Inv h (Immer.set m sid k v).1 := by
  rw [Immer.set]
  split
  · exact inv
  · rename_i st hst
    split
    · rename_i hmod
      exact inv_writeAddr h m inv _ (inv_copy_high h m inv sid st hst hmod) k v
    · rename_i hmod
      split
      · exact inv
      · have hmodf : st.modified = false := by
          cases hm : st.modified
          · rfl
          · exact absurd hm hmod
        have inv₁ := inv_markChanged h m sid inv
        split
        · rename_i st₁ hst₁
          obtain ⟨hself, _⟩ := markChanged_unmod m sid st hst inv.parentsLt hmodf
          rw [hself] at hst₁
          rw [← Option.some.inj hst₁]
          refine inv_writeAddr h _ inv₁ _ ?_ k v
          show h.length ≤ (some m.heap.length).getD _
          exact inv.heapExt
        · exact inv₁

theorem inv_deleteProperty (h : List HeapObj) (m : Machine) (sid : StateId)
    (k : Key) (inv : Inv h m) : Inv h (deleteProperty m sid k).1 := by
  rw [deleteProperty]
  have inv₁ := inv_markChanged h m sid inv
  split
  · rename_i st₁ hst₁
    refine inv_deleteAddr h _ inv₁ _ ?_ k
    have hmod₁ : st₁.modified = true := by
      cases hst : m.state? sid with
      | none =>
        have hMM : markChanged m sid = m := by
          rw [markChanged, markChangedAux, hst]
        rw [hMM, hst] at hst₁
        exact Option.noConfusion hst₁
      | some st =>
        cases hm : st.modified with
        | true =>
          rw [markChanged_mod m sid st hst hm] at hst₁
          rw [hst] at hst₁
          rw [← Option.some.inj hst₁]
          exact hm
        | false =>
          obtain ⟨hself, _⟩ := markChanged_unmod m sid st hst inv.parentsLt hm
          rw [hself] at hst₁
          rw [← Option.some.inj hst₁]
    exact inv_copy_high h _ inv₁ sid st₁ hst₁ hmod₁
  · exact inv₁

theorem inv_navigate (h : List HeapObj) (hinit : initHeap h = true)
    (path : List Key) (m : Machine) (v : JSValue) (inv : Inv h m) :
    Inv h (navigate m v path).1 := by
  induction path generalizing m v with
  | nil => exact inv
  | cons hd tl ih =>
    cases v with
    | undef => exact inv
    | prim n => exact inv
    | ref a =>
      rw [navigate]
      split
      · rename_i sid hh
        exact ih (get m sid hd).1 (get m sid hd).2 (inv_get h hinit m sid hd inv)
      · exact inv

theorem inv_execCmd (h : List HeapObj) (hinit : initHeap h = true) (m : Machine)
    (root : Addr) (c : Cmd) (inv : Inv h m) : Inv h (execCmd m root c).1 := by
  cases c with
  | readAt path k =>
    rw [execCmd]
    have h₁ : Inv h (resolve m root path).1 := by
      rw [resolve_fst]
      exact inv_navigate h hinit path m (.ref root) inv
    split
    · rename_i sid hsid
      exact inv_get h hinit _ sid k h₁
    · exact h₁
  | writeAt path k v =>
    rw [execCmd]
    have h₁ : Inv h (resolve m root path).1 := by
      rw [resolve_fst]
      exact inv_navigate h hinit path m (.ref root) inv
    split
    · rename_i sid hsid
      exact inv_set h _ sid k v.toValue h₁
    · exact h₁
  | writeDraftAt path k dpath =>
    rw [execCmd]
    have h₁ : Inv h (resolve m root path).1 := by
      rw [resolve_fst]
      exact inv_navigate h hinit path m (.ref root) inv
    split
    · rename_i sid hsid
      exact inv_set h _ sid k _ (inv_navigate h hinit dpath _ (.ref root) h₁)
    · exact h₁
  | deleteAt path k =>
    rw [execCmd]
    have h₁ : Inv h (resolve m root path).1 := by
      rw [resolve_fst]
      exact inv_navigate h hinit path m (.ref root) inv
    split
    · rename_i sid hsid
      exact inv_deleteProperty h _ sid k h₁
    · exact h₁
  | throwErr => exact inv

theorem inv_execProg (h : List HeapObj) (hinit : initHeap h = true)
    (prog : List Cmd) (m : Machine) (root : Addr) (inv : Inv h m) :
    Inv h (execProg m root prog).1 := by
  induction prog generalizing m with
  | nil => exact inv
  | cons c rest ih =>
    rw [execProg]
    have h₁ := inv_execCmd h hinit m root c inv
    split
    · rename_i m₁ hc
      rw [show (execCmd m root c).1 = m₁ from congrArg Prod.fst hc] at h₁
      exact ih m₁ h₁
    · rename_i m₁ e hc
      rw [show (execCmd m root c).1 = m₁ from congrArg Prod.fst hc] at h₁
      exact h₁

theorem inv_evalRet (h : List HeapObj) (hinit : initHeap h = true) (m : Machine)
    (root : Addr) (ret : RetSpec) (inv : Inv h m) : Inv h (evalRet m root ret).1 := by
  cases ret with
  | retUndef => exact inv
  | retRoot => exact inv
  | retPrim n => exact inv
  | retPath p => exact inv_navigate h hinit p m (.ref root) inv

end Immer

namespace Immer

theorem revokeOne_low (h : List HeapObj) (hinit : initHeap h = true) (m : Machine)
    (x : Addr) (hlow : LowInvP h m) : LowInvP h (revokeOne m x) := by
  rw [revokeOne]
  split
  · rename_i s r hsx
    have hxh : h.length ≤ x := by
      by_contra hc
      have hx2 : m.heap.get? x = h.get? x := hlow.1 x (Nat.lt_of_not_le hc)
      obtain ⟨o, ho⟩ := get?_of_lt h x (Nat.lt_of_not_le hc)
      have hpred := List.all_eq_true.mp hinit _ (List.get?_mem ho)
      cases o with
      | container c =>
        rw [hx2, ho] at hsx
        exact HeapObj.noConfusion (Option.some.inj hsx)
      | proxyObj s2 r2 => exact Bool.noConfusion hpred
    constructor
    · intro a ha
      show (m.heap.set x _).get? a = h.get? a
      rw [List.get?_set_ne _ _ (fun h2 => Nat.not_lt_of_le (by rw [← h2]; exact hxh) ha)]
      exact hlow.1 a ha
    · show h.length ≤ (m.heap.set x _).length
      rw [List.length_set]
      exact hlow.2
  · exact hlow

theorem foldl_revoke_low (h : List HeapObj) (hinit : initHeap h = true)
    (l : List Addr) : ∀ m : Machine, LowInvP h m → LowInvP h (l.foldl revokeOne m) := by
  induction l with
  | nil => exact fun m hlow => hlow
  | cons x l ih =>
    intro m hlow
    rw [List.foldl_cons]
    exact ih (revokeOne m x) (revokeOne_low h hinit m x hlow)

/-- C5: over a whole produce call — any sequence of reads, writes and
deletes, any returned value, on every exit path — every pre-call heap
cell is left exactly as it was, and every draft state's base is a
pre-call cell; so no base container is ever written, mutations go only
to the freshly allocated copies (or the proxies caches). -/
theorem base_never_mutated (m₀ : Machine) (baseA : Addr) (prog : List Cmd)
    (ret : RetSpec) (hinit : initHeap m₀.heap = true) (hstates : m₀.states = [])
    (hbase : ∃ c, m₀.heap.get? baseA = some (.container c)) :
    (∀ a, a < m₀.heap.length →
      (produceProxy m₀ baseA prog ret).2.heap.get? a = m₀.heap.get? a) ∧
    (∀ sid st, (produceProxy m₀ baseA prog ret).2.state? sid = some st →
      st.base < m₀.heap.length ∧
      (produceProxy m₀ baseA prog ret).2.heap.get? st.base = m₀.heap.get? st.base) := by
  have hSs : (createProxy { m₀ with registry := ([] : List Addr) } none baseA).1.states =
      [createState none baseA] := by
    show m₀.states ++ [createState none baseA] = _
    rw [hstates]
    rfl
  have hstX : ∀ j st,
      (createProxy { m₀ with registry := ([] : List Addr) } none baseA).1.state? j =
        some st → st = createState none baseA := by
    intro j st hstj
    rw [Machine.state?, hSs] at hstj
    cases j with
    | zero =>
      rw [List.get?_cons_zero] at hstj
      exact (Option.some.inj hstj).symm
    | succ n =>
      rw [List.get?_cons_succ] at hstj
      simp at hstj
  have inv₀ : Inv m₀.heap (createProxy { m₀ with registry := ([] : List Addr) } none baseA).1 := by
    refine ⟨?_, ?_, ?_, ?_, ?_, ?_⟩
    · intro a ha
      exact List.get?_append ha
    · show m₀.heap.length ≤ (m₀.heap ++ _).length
      rw [List.length_append]
      exact Nat.le_succ_of_le (Nat.le_refl _)
    · intro j st p hstj hp
      rw [hstX j st hstj] at hp
      exact Option.noConfusion hp
    · intro j st hstj
      rw [hstX j st hstj]
      obtain ⟨c, hc⟩ := hbase
      exact ⟨get?_lt_length _ _ _ hc, c, hc⟩
    · intro j st hstj hmod
      rw [hstX j st hstj] at hmod
      exact Bool.noConfusion hmod
    · intro j st ca hstj hca
      rw [hstX j st hstj] at hca
      exact Option.noConfusion hca
  have invE := inv_execProg m₀.heap hinit prog
    (createProxy { m₀ with registry := ([] : List Addr) } none baseA).1
    (createProxy { m₀ with registry := ([] : List Addr) } none baseA).2 inv₀
  have invR := inv_evalRet m₀.heap hinit
    (execProg (createProxy { m₀ with registry := ([] : List Addr) } none baseA).1
      (createProxy { m₀ with registry := ([] : List Addr) } none baseA).2 prog).1
    (createProxy { m₀ with registry := ([] : List Addr) } none baseA).2 ret invE
  rcases produceCore_cases
    (createProxy { m₀ with registry := ([] : List Addr) } none baseA).1
    (createProxy { m₀ with registry := ([] : List Addr) } none baseA).2 prog ret
    with ⟨e, hc⟩ | hc | ⟨w, hc⟩
  · constructor
    · intro a ha
      show (produceCore _ _ prog ret).2.heap.get? a = _
      rw [hc]
      exact invE.lowPres a ha
    · intro sid st hstj
      have hstj' : (execProg (createProxy { m₀ with registry := ([] : List Addr) } none baseA).1
          (createProxy { m₀ with registry := ([] : List Addr) } none baseA).2 prog).1.state? sid =
          some st := by
        have : (produceCore (createProxy { m₀ with registry := ([] : List Addr) } none baseA).1
            (createProxy { m₀ with registry := ([] : List Addr) } none baseA).2 prog ret).2.state? sid =
            some st := hstj
        rw [hc] at this
        exact this
      obtain ⟨h1, c, h2⟩ := invE.baseLow sid st hstj'
      refine ⟨h1, ?_⟩
      show (produceCore _ _ prog ret).2.heap.get? st.base = _
      rw [hc]
      exact invE.lowPres st.base h1
  · constructor
    · intro a ha
      show (produceCore _ _ prog ret).2.heap.get? a = _
      rw [hc]
      exact invR.lowPres a ha
    · intro sid st hstj
      have hstj' : (evalRet (execProg (createProxy { m₀ with registry := ([] : List Addr) } none baseA).1
          (createProxy { m₀ with registry := ([] : List Addr) } none baseA).2 prog).1
          (createProxy { m₀ with registry := ([] : List Addr) } none baseA).2 ret).1.state? sid =
          some st := by
        have : (produceCore (createProxy { m₀ with registry := ([] : List Addr) } none baseA).1
            (createProxy { m₀ with registry := ([] : List Addr) } none baseA).2 prog ret).2.state? sid =
            some st := hstj
        rw [hc] at this
        exact this
      obtain ⟨h1, c, h2⟩ := invR.baseLow sid st hstj'
      refine ⟨h1, ?_⟩
      show (produceCore _ _ prog ret).2.heap.get? st.base = _
      rw [hc]
      exact invR.lowPres st.base h1
  · have hlowF := ((finalize_frame m₀.heap hinit
      ((evalRet (execProg (createProxy { m₀ with registry := ([] : List Addr) } none baseA).1
        (createProxy { m₀ with registry := ([] : List Addr) } none baseA).2 prog).1
        (createProxy { m₀ with registry := ([] : List Addr) } none baseA).2 ret).1.heap.length + 1)).1
      (evalRet (execProg (createProxy { m₀ with registry := ([] : List Addr) } none baseA).1
        (createProxy { m₀ with registry := ([] : List Addr) } none baseA).2 prog).1
        (createProxy { m₀ with registry := ([] : List Addr) } none baseA).2 ret).1 w
      ⟨invR.lowPres, invR.heapExt⟩).1
    have hlowRev := foldl_revoke_low m₀.heap hinit
      (finalizeAux ((evalRet (execProg (createProxy { m₀ with registry := ([] : List Addr) } none baseA).1
        (createProxy { m₀ with registry := ([] : List Addr) } none baseA).2 prog).1
        (createProxy { m₀ with registry := ([] : List Addr) } none baseA).2 ret).1.heap.length + 1)
        (evalRet (execProg (createProxy { m₀ with registry := ([] : List Addr) } none baseA).1
          (createProxy { m₀ with registry := ([] : List Addr) } none baseA).2 prog).1
          (createProxy { m₀ with registry := ([] : List Addr) } none baseA).2 ret).1 w).1.registry
      (finalizeAux ((evalRet (execProg (createProxy { m₀ with registry := ([] : List Addr) } none baseA).1
        (createProxy { m₀ with registry := ([] : List Addr) } none baseA).2 prog).1
        (createProxy { m₀ with registry := ([] : List Addr) } none baseA).2 ret).1.heap.length + 1)
        (evalRet (execProg (createProxy { m₀ with registry := ([] : List Addr) } none baseA).1
          (createProxy { m₀ with registry := ([] : List Addr) } none baseA).2 prog).1
          (createProxy { m₀ with registry := ([] : List Addr) } none baseA).2 ret).1 w).1 hlowF
    constructor
    · intro a ha
      show (produceCore _ _ prog ret).2.heap.get? a = _
      rw [hc]
      exact hlowRev.1 a ha
    · intro sid st hstj
      have hstj' : (evalRet (execProg (createProxy { m₀ with registry := ([] : List Addr) } none baseA).1
          (createProxy { m₀ with registry := ([] : List Addr) } none baseA).2 prog).1
          (createProxy { m₀ with registry := ([] : List Addr) } none baseA).2 ret).1.state? sid =
          some st := by
        have hq : (produceCore (createProxy { m₀ with registry := ([] : List Addr) } none baseA).1
            (createProxy { m₀ with registry := ([] : List Addr) } none baseA).2 prog ret).2.state? sid =
            some st := hstj
        rw [hc] at hq
        rw [Machine.state?, revokeAll, foldl_revoke_states,
          ((finalize_states_registry _).1 _ w).1] at hq
        exact hq
      obtain ⟨h1, c, h2⟩ := invR.baseLow sid st hstj'
      refine ⟨h1, ?_⟩
      show (produceCore _ _ prog ret).2.heap.get? st.base = _
      rw [hc]
      exact hlowRev.1 st.base h1

/-- Witness for C5: after the deep write draft[0][0] = 2 over the example
machine, the pre-call cells 0 and 1 (the inner and outer base
containers) are untouched in the final machine. -/
theorem base_never_mutated_witness :
    (produceProxy exMachine 1 [.writeAt [0] 0 (.prim 2)] .retUndef).2.heap.get? 0 =
      exMachine.heap.get? 0 ∧
    (produceProxy exMachine 1 [.writeAt [0] 0 (.prim 2)] .retUndef).2.heap.get? 1 =
      exMachine.heap.get? 1 :=
  ⟨(base_never_mutated exMachine 1 [.writeAt [0] 0 (.prim 2)] .retUndef (by decide)
      (by decide) ⟨⟨.obj, [(0, .ref 0), (1, .prim 7)]⟩, by decide⟩).1 0 (by decide),
   (base_never_mutated exMachine 1 [.writeAt [0] 0 (.prim 2)] .retUndef (by decide)
      (by decide) ⟨⟨.obj, [(0, .ref 0), (1, .prim 7)]⟩, by decide⟩).1 1 (by decide)⟩

end Immer

namespace Immer

theorem removeEntry_absent (es : List (Key × JSValue)) (k : Key)
    (habs : hasKey es k = false) : removeEntry es k = es := by
  induction es with
  | nil => rfl
  | cons kv rest ih =>
    obtain ⟨k₁, v₁⟩ := kv
    rw [hasKey] at habs
    rw [removeEntry]
    by_cases hk : k₁ = k
    · rw [if_pos hk] at habs
      exact Bool.noConfusion habs
    · rw [if_neg hk] at habs
      rw [if_neg hk, ih habs]

theorem set_concat_self {α : Type} (l : List α) (x : α) :
    (l ++ [x]).set l.length x = l ++ [x] := by
  induction l with
  | nil => rfl
  | cons a l ih =>
    show a :: ((l ++ [x]).set l.length x) = a :: (l ++ [x])
    rw [ih]

theorem ancestorsAux_states_eq (f : Nat) : ∀ (m m' : Machine),
    m'.states = m.states → ∀ sid, ancestorsAux f m' sid = ancestorsAux f m sid := by
  induction f with
  | zero => intro m m' _ sid; rfl
  | succ f ih =>
    intro m m' hse sid
    rw [ancestorsAux, ancestorsAux]
    rw [show m'.state? sid = m.state? sid from by rw [Machine.state?, Machine.state?, hse]]
    cases m.state? sid with
    | none => rfl
    | some st =>
      show (match st.parent with
          | some p => p :: ancestorsAux f m' p
          | none => []) =
        (match st.parent with
          | some p => p :: ancestorsAux f m p
          | none => [])
      cases st.parent with
      | none => rfl
      | some p =>
        show p :: ancestorsAux f m' p = p :: ancestorsAux f m p
        rw [ih m m' hse p]

theorem markChanged_copiesMod (m : Machine) (sid : StateId)
    (hcm : ∀ j st, m.state? j = some st → st.modified = true → st.copy ≠ none) :
    ∀ j st', (markChanged m sid).state? j = some st' → st'.modified = true →
      st'.copy ≠ none := by
  intro j st' hst' hmod'
  have hj : j < (markChanged m sid).states.length := state?_lt _ j st' hst'
  have hlenEq : (markChanged m sid).states.length = m.states.length :=
    markChangedAux_states_length (sid+1) m sid
  obtain ⟨st, hst⟩ := state?_of_lt m j (by rw [← hlenEq]; exact hj)
  obtain ⟨st'', hst'', hpar, hbase, hprox, hfin, hmodcase, hdisj⟩ :=
    markChangedAux_state_evolution (sid+1) m sid j st hst
  have hee : st'' = st' := by
    rw [markChanged] at hst'
    rw [hst''] at hst'
    exact Option.some.inj hst'
  rw [hee] at hdisj
  rcases hdisj with hsame | ⟨hmf, hmt, ca, hca, _⟩
  · rw [hsame] at hmod' ⊢
    exact hcm j st hst hmod'
  · rw [hca]
    exact fun hcc => Option.noConfusion hcc

end Immer

namespace Immer

theorem delete_escalates_all (m : Machine) (sid : StateId) (st : DraftState) (k : Key)
    (hst : m.state? sid = some st) (hpl : ParentsLt m) (hup : UpClosed m)
    (hcm : ∀ j stj, m.state? j = some stj → stj.modified = true → stj.copy ≠ none) :
    (∃ st', (deleteProperty m sid k).1.state? sid = some st' ∧
      st'.modified = true ∧ st'.copy ≠ none) ∧
    (∀ p, p ∈ ancestors (deleteProperty m sid k).1 sid →
      ∃ pst, (deleteProperty m sid k).1.state? p = some pst ∧
        pst.modified = true ∧ pst.copy ≠ none) := by
  have hplM := markChanged_parentsLt m sid hpl
  have hupM := markChanged_upClosed m sid hpl hup
  have hcmM := markChanged_copiesMod m sid hcm
  have hsid : ∃ st', (markChanged m sid).state? sid = some st' ∧
      st'.modified = true ∧ st'.copy ≠ none := by
    cases hm : st.modified
    · obtain ⟨h1, h2⟩ := markChanged_unmod m sid st hst hpl hm
      exact ⟨_, h1, rfl, fun hc => Option.noConfusion hc⟩
    · rw [markChanged_mod m sid st hst hm]
      exact ⟨st, hst, hm, hcm sid st hst hm⟩
  obtain ⟨st', hst', hmod', hcopy'⟩ := hsid
  have hse : (deleteProperty m sid k).1.states = (markChanged m sid).states := by
    rw [deleteProperty]
    split
    · exact deleteAddr_states _ _ _
    · rfl
  have hstD : ∀ j stj, (markChanged m sid).state? j = some stj →
      (deleteProperty m sid k).1.state? j = some stj := by
    intro j stj hj
    rw [Machine.state?, hse]
    exact hj
  constructor
  · exact ⟨st', hstD sid st' hst', hmod', hcopy'⟩
  · intro p hp
    have hanc : ancestors (deleteProperty m sid k).1 sid =
        ancestors (markChanged m sid) sid := by
      rw [ancestors, ancestors]
      exact ancestorsAux_states_eq (sid+1) (markChanged m sid) _ hse sid
    rw [hanc] at hp
    obtain ⟨pst, hpst, hpmod⟩ := ancestors_modified_aux (markChanged m sid) hplM hupM
      (sid+1) sid st' hst' hmod' p hp
    exact ⟨pst, hstD p pst hpst, hpmod, hcmM p pst hpst hpmod⟩

end Immer

namespace Immer

theorem delete_absent_produce (m₀ : Machine) (baseA : Addr) (c : Container) (k : Key)
    (hinit : initHeap m₀.heap = true) (hstates : m₀.states = [])
    (hbase : m₀.heap.get? baseA = some (.container c))
    (habs : hasKey c.entries k = false) :
    (produceProxy m₀ baseA [.deleteAt [] k] .retUndef).1 =
      .ok (.ref (m₀.heap.length + 2)) ∧
    (produceProxy m₀ baseA [.deleteAt [] k] .retUndef).2.heap.get? (m₀.heap.length + 2) =
      some (.container c) ∧
    (produceProxy m₀ baseA [.deleteAt [] k] .retUndef).2.heap.get? baseA =
      some (.container c) := by
  have hlt : baseA < m₀.heap.length := get?_lt_length _ _ _ hbase
  have hlen1 : (m₀.heap ++ [HeapObj.proxyObj 0 false]).length = m₀.heap.length + 1 := by
    rw [List.length_append]
    rfl
  have hlen2 : ((m₀.heap ++ [HeapObj.proxyObj 0 false]) ++ [HeapObj.container c]).length =
      m₀.heap.length + 2 := by
    rw [List.length_append, hlen1]
    rfl
  have hcp : createProxy { m₀ with registry := ([] : List Addr) } none baseA =
      (dpM1 m₀ baseA, m₀.heap.length) := by
    show ((⟨m₀.heap ++ [.proxyObj m₀.states.length false],
            m₀.states ++ [createState none baseA],
            ([] : List Addr) ++ [m₀.heap.length]⟩ : Machine),
          m₀.heap.length) = _
    rw [hstates]
    rfl
  have hg1 : (m₀.heap ++ [HeapObj.proxyObj 0 false]).get? m₀.heap.length =
      some (HeapObj.proxyObj 0 false) := List.get?_concat_length _ _
  have hgB1 : (m₀.heap ++ [HeapObj.proxyObj 0 false]).get? baseA =
      some (HeapObj.container c) := (List.get?_append hlt).trans hbase
  have hcont1 : (dpM1 m₀ baseA).container? baseA = some c := by
    rw [Machine.container?]
    rw [show (dpM1 m₀ baseA).heap.get? baseA = some (HeapObj.container c) from hgB1]
  have hresolve : resolve (dpM1 m₀ baseA) m₀.heap.length [] =
      (dpM1 m₀ baseA, Except.ok 0) := by
    rw [resolve]
    split
    · rename_i a heq
      have heq' : JSValue.ref m₀.heap.length = JSValue.ref a := heq
      have ha : a = m₀.heap.length := (JSValue.ref.inj heq').symm
      subst ha
      split
      · rename_i sid heq2
        have heq2' : (m₀.heap ++ [HeapObj.proxyObj 0 false]).get? m₀.heap.length =
            some (HeapObj.proxyObj sid false) := heq2
        rw [hg1] at heq2'
        have hsid : sid = 0 := ((HeapObj.proxyObj.inj (Option.some.inj heq2')).1).symm
        show (dpM1 m₀ baseA, Except.ok sid) = (dpM1 m₀ baseA, Except.ok 0)
        rw [hsid]
      · rename_i heq2
        exact absurd
          (show (navigate (dpM1 m₀ baseA) (.ref m₀.heap.length) []).1.heap.get?
              m₀.heap.length = some (HeapObj.proxyObj 0 false) from hg1)
          (heq2 0)
    · rename_i heq
      exact absurd
        (show (navigate (dpM1 m₀ baseA) (.ref m₀.heap.length) []).2 =
            JSValue.ref m₀.heap.length from rfl)
        (heq m₀.heap.length)
  have hmc : markChanged (dpM1 m₀ baseA) 0 = dpM2 m₀ baseA c := by
    show mcStep (dpM1 m₀ baseA) 0
      { modified := false, finalized := false, parent := none, base := baseA,
        copy := none, proxies := [] } = dpM2 m₀ baseA c
    rw [mcStep, mcCopy, hcont1,
      show (dpM1 m₀ baseA).heap.length = m₀.heap.length + 1 from hlen1]
    rfl
  have hg2 : (dpM2 m₀ baseA c).heap.get? (m₀.heap.length + 1) =
      some (HeapObj.container c) := by
    have h := List.get?_concat_length (m₀.heap ++ [HeapObj.proxyObj 0 false])
      (HeapObj.container c)
    rw [hlen1] at h
    exact h
  have hdel : deleteProperty (dpM1 m₀ baseA) 0 k = (dpM2 m₀ baseA c, true) := by
    rw [deleteProperty, hmc]
    show ((dpM2 m₀ baseA c).deleteAddr (m₀.heap.length + 1) k, true) =
      (dpM2 m₀ baseA c, true)
    rw [Machine.deleteAddr, hg2]
    show ({ dpM2 m₀ baseA c with
        heap := (dpM2 m₀ baseA c).heap.set (m₀.heap.length + 1)
          (HeapObj.container ⟨c.kind, removeEntry c.entries k⟩) }, true) =
      (dpM2 m₀ baseA c, true)
    rw [removeEntry_absent c.entries k habs]
    have hsetid : (dpM2 m₀ baseA c).heap.set (m₀.heap.length + 1)
        (HeapObj.container ⟨c.kind, c.entries⟩) = (dpM2 m₀ baseA c).heap := by
      have h := set_concat_self (m₀.heap ++ [HeapObj.proxyObj 0 false])
        (HeapObj.container c)
      rw [hlen1] at h
      exact h
    rw [hsetid]
  have hcmdE : execCmd (dpM1 m₀ baseA) m₀.heap.length (Cmd.deleteAt [] k) =
      (dpM2 m₀ baseA c, none) := by
    rw [execCmd, hresolve]
    show ((deleteProperty (dpM1 m₀ baseA) 0 k).1, none) = (dpM2 m₀ baseA c, none)
    rw [hdel]
  have hexec : execProg (dpM1 m₀ baseA) m₀.heap.length [Cmd.deleteAt [] k] =
      (dpM2 m₀ baseA c, none) := by
    rw [execProg, hcmdE]
    rfl
  have hexec1 : (execProg (dpM1 m₀ baseA) m₀.heap.length [Cmd.deleteAt [] k]).1 =
      dpM2 m₀ baseA c := by rw [hexec]
  have hexec2 : (execProg (dpM1 m₀ baseA) m₀.heap.length [Cmd.deleteAt [] k]).2 =
      none := by rw [hexec]
  have hg2' : (dpM2 m₀ baseA c).heap.get? m₀.heap.length =
      some (HeapObj.proxyObj 0 false) := by
    have hlow : m₀.heap.length < (m₀.heap ++ [HeapObj.proxyObj 0 false]).length := by
      rw [hlen1]
      exact Nat.lt_succ_self _
    exact (List.get?_append hlow).trans hg1
  have hstM2 : (dpM2 m₀ baseA c).state? 0 = some (dpSt1 m₀ baseA) := rfl
  have hcont2 : (dpM2 m₀ baseA c).container? (m₀.heap.length + 1) = some c := by
    rw [Machine.container?, hg2]
  have hlow2 : LowInvP m₀.heap (dpM2 m₀ baseA c) := by
    constructor
    · intro a ha
      show ((m₀.heap ++ [HeapObj.proxyObj 0 false]) ++ [HeapObj.container c]).get? a =
        m₀.heap.get? a
      rw [List.get?_append (show a < (m₀.heap ++ [HeapObj.proxyObj 0 false]).length from
        by rw [hlen1]; exact Nat.lt_succ_of_lt ha)]
      exact List.get?_append ha
    · show m₀.heap.length ≤
        ((m₀.heap ++ [HeapObj.proxyObj 0 false]) ++ [HeapObj.container c]).length
      rw [hlen2]
      exact Nat.le_add_right _ _
  have hfe : finalizeEntries ((dpM2 m₀ baseA c).heap.length) (dpM2 m₀ baseA c)
      c.entries = (dpM2 m₀ baseA c, c.entries) :=
    (finalize_low_id m₀.heap hinit _).2 _ c.entries hlow2
      (initHeap_entries m₀.heap hinit baseA c hbase)
  have hfin : finalizeAux ((dpM2 m₀ baseA c).heap.length + 1) (dpM2 m₀ baseA c)
      (.ref m₀.heap.length) = (dpM4 m₀ baseA c, .ref (m₀.heap.length + 2)) := by
    rw [finalizeAux]
    simp only [hg2', hstM2, hcont2, hfe, dpSt1, eq_self_iff_true, if_true, Option.getD]
    rw [hlen2]
  have hPC : produceCore (dpM1 m₀ baseA) m₀.heap.length [Cmd.deleteAt [] k]
      RetSpec.retUndef =
      (.ok (.ref (m₀.heap.length + 2)), revokeAll (dpM4 m₀ baseA c)) := by
    rw [produceCore, hexec2]
    rw [if_neg (fun h => h.1 rfl)]
    rw [hexec1]
    rw [show evalRet (dpM2 m₀ baseA c) m₀.heap.length RetSpec.retUndef =
      (dpM2 m₀ baseA c, JSValue.undef) from rfl]
    rw [hfin]
  have hg4 : (dpM4 m₀ baseA c).heap.get? m₀.heap.length =
      some (HeapObj.proxyObj 0 false) := by
    have hlw : m₀.heap.length <
        ((m₀.heap ++ [HeapObj.proxyObj 0 false]) ++ [HeapObj.container c]).length := by
      rw [hlen2]
      omega
    exact (List.get?_append hlw).trans hg2'
  have hrev : revokeAll (dpM4 m₀ baseA c) =
      { heap := (dpM4 m₀ baseA c).heap.set m₀.heap.length (HeapObj.proxyObj 0 true),
        states := [dpSt1 m₀ baseA], registry := [m₀.heap.length] } := by
    show revokeOne (dpM4 m₀ baseA c) m₀.heap.length = _
    rw [revokeOne, hg4]
  have hg5 : (dpM4 m₀ baseA c).heap.get? (m₀.heap.length + 2) =
      some (HeapObj.container c) := by
    have h := List.get?_concat_length
      ((m₀.heap ++ [HeapObj.proxyObj 0 false]) ++ [HeapObj.container c])
      (HeapObj.container c)
    rw [hlen2] at h
    exact h
  have hgB2 : (dpM2 m₀ baseA c).heap.get? baseA = some (HeapObj.container c) := by
    have hlw : baseA < (m₀.heap ++ [HeapObj.proxyObj 0 false]).length := by
      rw [hlen1]
      exact Nat.lt_succ_of_lt hlt
    exact (List.get?_append hlw).trans hgB1
  have hgB4 : (dpM4 m₀ baseA c).heap.get? baseA = some (HeapObj.container c) := by
    have hlw : baseA <
        ((m₀.heap ++ [HeapObj.proxyObj 0 false]) ++ [HeapObj.container c]).length := by
      rw [hlen2]
      exact Nat.lt_trans hlt (Nat.lt_add_of_pos_right (by decide))
    exact (List.get?_append hlw).trans hgB2
  have hPP1 : (produceProxy m₀ baseA [Cmd.deleteAt [] k] RetSpec.retUndef).1 =
      Except.ok (JSValue.ref (m₀.heap.length + 2)) := by
    rw [produceProxy, hcp]
    show (produceCore (dpM1 m₀ baseA) m₀.heap.length [Cmd.deleteAt [] k]
      RetSpec.retUndef).1 = _
    rw [hPC]
  have hPPheap : (produceProxy m₀ baseA [Cmd.deleteAt [] k] RetSpec.retUndef).2.heap =
      (dpM4 m₀ baseA c).heap.set m₀.heap.length (HeapObj.proxyObj 0 true) := by
    rw [produceProxy, hcp]
    show (produceCore (dpM1 m₀ baseA) m₀.heap.length [Cmd.deleteAt [] k]
      RetSpec.retUndef).2.heap = _
    rw [hPC, hrev]
  have hne1 : m₀.heap.length ≠ m₀.heap.length + 2 :=
    Nat.ne_of_lt (Nat.lt_add_of_pos_right (by decide))
  have hne2 : m₀.heap.length ≠ baseA := Nat.ne_of_gt hlt
  refine ⟨hPP1, ?_, ?_⟩
  · rw [hPPheap]
    rw [List.get?_set_ne _ _ hne1]
    exact hg5
  · rw [hPPheap]
    rw [List.get?_set_ne _ _ hne2]
    exact hgB4

end Immer

namespace Immer

/-- C10: deleting a key that is absent from the draft's base (and from
its effective value) still unconditionally escalates: the state and
every ancestor end up modified with a copy allocated at each level; and
a produce call whose only action is deleting a nonexistent key returns a
fresh root container — at a new address, distinct from the base — even
though no entry was removed (it holds exactly the base's entries, and
the base container itself is untouched). -/
theorem delete_missing_key_escalates (k : Key) :
    (∀ (m : Machine) (sid : StateId) (st : DraftState),
      m.state? sid = some st → ParentsLt m → UpClosed m →
      (∀ j stj, m.state? j = some stj → stj.modified = true → stj.copy ≠ none) →
      (∃ st', (deleteProperty m sid k).1.state? sid = some st' ∧
        st'.modified = true ∧ st'.copy ≠ none) ∧
      (∀ p, p ∈ ancestors (deleteProperty m sid k).1 sid →
        ∃ pst, (deleteProperty m sid k).1.state? p = some pst ∧
          pst.modified = true ∧ pst.copy ≠ none)) ∧
    (∀ (m₀ : Machine) (baseA : Addr) (c : Container),
      initHeap m₀.heap = true → m₀.states = [] →
      m₀.heap.get? baseA = some (.container c) → hasKey c.entries k = false →
      (produceProxy m₀ baseA [.deleteAt [] k] .retUndef).1 =
        .ok (.ref (m₀.heap.length + 2)) ∧
      m₀.heap.length + 2 ≠ baseA ∧
      (produceProxy m₀ baseA [.deleteAt [] k] .retUndef).2.heap.get?
        (m₀.heap.length + 2) = some (.container c) ∧
      (produceProxy m₀ baseA [.deleteAt [] k] .retUndef).2.heap.get? baseA =
        some (.container c)) := by
  constructor
  · intro m sid st hst hpl hup hcm
    exact delete_escalates_all m sid st k hst hpl hup hcm
  · intro m₀ baseA c hinit hstates hbase habs
    obtain ⟨h1, h2, h3⟩ := delete_absent_produce m₀ baseA c k hinit hstates hbase habs
    refine ⟨h1, ?_, h2, h3⟩
    exact Nat.ne_of_gt (Nat.lt_trans (get?_lt_length _ _ _ hbase)
      (Nat.lt_add_of_pos_right (by decide)))

/-- Witness for C10: deleting the absent key 5 through the child draft
of the example machine escalates the child state, and a produce call
deleting key 5 at the root of the example machine succeeds with a fresh
container at address 4 that holds the base's two entries. -/
theorem delete_missing_key_escalates_witness :
    (∃ st', (deleteProperty exDraft2 1 5).1.state? 1 = some st' ∧
      st'.modified = true ∧ st'.copy ≠ none) ∧
    (produceProxy exMachine 1 [.deleteAt [] 5] .retUndef).1 = .ok (.ref 4) ∧
    (produceProxy exMachine 1 [.deleteAt [] 5] .retUndef).2.heap.get? 4 =
      some (.container ⟨.obj, [(0, .ref 0), (1, .prim 7)]⟩) :=
  ⟨((delete_missing_key_escalates 5).1 exDraft2 1 (createState (some 0) 0) (by decide)
      (parentsLt_of_B _ (by decide)) (upClosed_of_B _ (by decide))
      (copiesMod_of_B _ (by decide))).1,
   ((delete_missing_key_escalates 5).2 exMachine 1 ⟨.obj, [(0, .ref 0), (1, .prim 7)]⟩
      (by decide) (by decide) (by decide) (by decide)).1,
   ((delete_missing_key_escalates 5).2 exMachine 1 ⟨.obj, [(0, .ref 0), (1, .prim 7)]⟩
      (by decide) (by decide) (by decide) (by decide)).2.2.1⟩

end Immer
